import Mathlib

/-!
Shallow embedding of the brainfuck interpreter in `src/main.rs`.

Conventions of the embedding:
* Rust `u8` cell values are `Nat` with explicit `% 256` at every write that
  could leave the 0..255 range (`wrapping_add` / `wrapping_sub` / the byte
  read from stdin).
* Rust `usize` is `Nat`; `usize::checked_add x 1` / `usize::checked_sub x 1`
  are modelled by `checked_add` / `checked_sub` below with the 64-bit bound
  `USIZE_MAX` made explicit.
* A Rust panic (out-of-bounds `Vec` indexing, `Option::unwrap` on `None`,
  instruction-pointer overflow) is modelled as `Option.none` (for the
  `BfArray` methods) or as the `crashed` outcome (for the interpreter loop).
* The output writer and stdin are modelled as explicit `List Nat` values
  threaded through the functions; `eprintln` + `break` on `Action::Exit`
  is the `fatal` run outcome carrying the message.
* The tracing branch (`BF_VISUALIZER_TIME` / `write_array` / `sleep`) only
  writes to an external file and sleeps; it is modelled with the delay
  absent (`wait = 0`), i.e. the branch does nothing.
-/

namespace Bf

/-- `enum OpCode` from the source. -/
inductive OpCode where
  | MoveForward
  | MoveBack
  | Increment
  | Decrement
  | Output
  | Input
  | JmpStart
  | JmpEnd
deriving DecidableEq, Repr

/-- `enum ModifyDirection` from the source. -/
inductive ModifyDirection where
  | up
  | down
deriving DecidableEq, Repr

/-- `enum JumpFrom` from the source (`Start` / `End`). -/
inductive JumpFrom where
  | start
  | end_
deriving DecidableEq, Repr

/-- `enum Action` from the source. -/
inductive Action where
  | jumpForward
  | jumpBack
  | exit (msg : String)
  | none
deriving DecidableEq, Repr

/-- `const ARRAY_SIZE: usize = u16::max_value() as usize;` — this is 65535. -/
def ARRAY_SIZE : Nat := 65535

/-- Largest value of a 64-bit `usize`. -/
def USIZE_MAX : Nat := 2 ^ 64 - 1

/-- `usize::checked_add self 1`: `none` exactly on 64-bit overflow. -/
def checked_add (x : Nat) : Option Nat :=
  if x < USIZE_MAX then some (x + 1) else Option.none

/-- `usize::checked_sub self 1`: `none` exactly when `x = 0`. -/
def checked_sub (x : Nat) : Option Nat :=
  if x = 0 then Option.none else some (x - 1)

/-- `struct BfArray { raw: Vec<u8>, pointer: usize }`. -/
structure BfArray where
  raw : List Nat
  pointer : Nat
deriving DecidableEq, Repr

/-- `BfArray::new`: `ARRAY_SIZE` zero cells, pointer 0. -/
def BfArray.new : BfArray :=
  { raw := List.replicate ARRAY_SIZE 0, pointer := 0 }

/-- `fn value(&self) -> u8 { self.raw[self.pointer] }`; `none` models the
index-out-of-bounds panic. -/
def BfArray.value (st : BfArray) : Option Nat :=
  st.raw.get? st.pointer

/-- `fn set_value(&mut self, val: u8) { self.raw[self.pointer] = val }`;
`none` models the index-out-of-bounds panic. -/
def BfArray.set_value (st : BfArray) (val : Nat) : Option BfArray :=
  if st.pointer < st.raw.length then
    some { st with raw := st.raw.set st.pointer val }
  else
    Option.none

/-- `fn output(...)`: write the current cell to the writer, flush. -/
def BfArray.output (st : BfArray) (writer : List Nat) : Option (Action × List Nat) :=
  st.value.map (fun v => (Action.none, writer ++ [v]))

/-- `fn input(&mut self)`: take the first available stdin byte (or 0 when
stdin is exhausted) and store it in the current cell.  `% 256` records that
the byte read is a `u8`. -/
def BfArray.input (st : BfArray) (stdin : List Nat) :
    Option (Action × BfArray × List Nat) :=
  match stdin with
  | [] => (st.set_value 0).map (fun st' => (Action.none, st', ([] : List Nat)))
  | b :: rest => (st.set_value (b % 256)).map (fun st' => (Action.none, st', rest))

/-- `fn jump_from(&self, from: JumpFrom) -> Action`. -/
def BfArray.jump_from (st : BfArray) (f : JumpFrom) : Option Action :=
  st.value.map (fun v =>
    match f, v != 0 with
    | JumpFrom.start, false => Action.jumpForward
    | JumpFrom.end_, true => Action.jumpBack
    | _, _ => Action.none)

/-- `fn modify_value(&mut self, direction)`: `u8::wrapping_add` /
`u8::wrapping_sub` by 1 on the current cell (mod-256 arithmetic). -/
def BfArray.modify_value (st : BfArray) (dir : ModifyDirection) :
    Option (Action × BfArray) :=
  st.value.bind (fun v =>
    let v' := match dir with
      | ModifyDirection.up => (v + 1) % 256
      | ModifyDirection.down => (v + 255) % 256
    (st.set_value v').map (fun st' => (Action.none, st')))

/-- `fn move_pointer(&mut self, direction)`: checked `usize` arithmetic on
the tape cursor; `None` becomes `Action::Exit("Pointer access violation")`. -/
def BfArray.move_pointer (st : BfArray) (dir : ModifyDirection) :
    Action × BfArray :=
  let r := match dir with
    | ModifyDirection.up => checked_add st.pointer
    | ModifyDirection.down => checked_sub st.pointer
  match r with
  | Option.none => (Action.exit "Pointer access violation", st)
  | some x => (Action.none, { st with pointer := x })

/-- `fn perform_operation(&mut self, opcode, writer) -> Action`, with the
writer and stdin threaded explicitly. -/
def BfArray.perform_operation (st : BfArray) (op : OpCode)
    (writer stdin : List Nat) :
    Option (Action × BfArray × List Nat × List Nat) :=
  match op with
  | OpCode.Output => (st.output writer).map (fun p => (p.1, st, p.2, stdin))
  | OpCode.Input => (st.input stdin).map (fun p => (p.1, p.2.1, writer, p.2.2))
  | OpCode.JmpStart => (st.jump_from JumpFrom.start).map (fun a => (a, st, writer, stdin))
  | OpCode.JmpEnd => (st.jump_from JumpFrom.end_).map (fun a => (a, st, writer, stdin))
  | OpCode.Increment => (st.modify_value ModifyDirection.up).map (fun p => (p.1, p.2, writer, stdin))
  | OpCode.Decrement => (st.modify_value ModifyDirection.down).map (fun p => (p.1, p.2, writer, stdin))
  | OpCode.MoveForward =>
    let p := st.move_pointer ModifyDirection.up
    some (p.1, p.2, writer, stdin)
  | OpCode.MoveBack =>
    let p := st.move_pointer ModifyDirection.down
    some (p.1, p.2, writer, stdin)

/-- `struct Interpreter`.  The jump stack is a Lean list with the most
recently pushed element (`Vec::last`) at the head. -/
structure Interpreter where
  inner : BfArray
  ops : List OpCode
  jump_stack : List Nat
  pointer : Nat
deriving DecidableEq, Repr

/-- `Interpreter::new`. -/
def Interpreter.new (ops : List OpCode) : Interpreter :=
  { inner := BfArray.new, ops := ops, jump_stack := [], pointer := 0 }

/-- `fn increment_pointer(&mut self)`: `none` models the
"Iter pointer overflow" panic. -/
def Interpreter.increment_pointer (st : Interpreter) : Option Interpreter :=
  (checked_add st.pointer).map (fun p => { st with pointer := p })

/-- The body of the `loop` in `fn jmp_forward`: starting from instruction
index `p` (the `JmpStart` being skipped, or a later scan position) and
nesting counter `depth` (the local `jmp_stack` variable of the source),
return the index of the matching `JmpEnd`.  The `p < USIZE_MAX` guard is
`increment_pointer`'s checked add; `none` models either that panic or the
out-of-bounds indexing panic of `self.ops[self.pointer]`. -/
def jmp_forward_go (ops : List OpCode) (p depth : Nat) : Option Nat :=
  if p < USIZE_MAX then
    if hq : p + 1 < ops.length then
      match ops.get ⟨p + 1, hq⟩ with
      | OpCode.JmpStart => jmp_forward_go ops (p + 1) (depth + 1)
      | OpCode.JmpEnd =>
        if depth = 0 then some (p + 1) else jmp_forward_go ops (p + 1) (depth - 1)
      | _ => jmp_forward_go ops (p + 1) depth
    else
      Option.none
  else
    Option.none
termination_by ops.length - p
decreasing_by
  all_goals omega

/-- `fn jmp_forward(&mut self)`: scan for the matching `JmpEnd`, then one
final `increment_pointer` to skip past it. -/
def Interpreter.jmp_forward (st : Interpreter) : Option Interpreter :=
  (jmp_forward_go st.ops st.pointer 0).bind (fun m =>
    (checked_add m).map (fun m' => { st with pointer := m' }))

/-- Result of one iteration of the `while let` loop in `execute_all`. -/
inductive IterOut where
  | again (st : Interpreter) (writer stdin : List Nat)
  | stopped (msg : String) (st : Interpreter) (writer stdin : List Nat)
  | crashed
deriving DecidableEq, Repr

/-- One iteration of the `while let Some(op) = self.ops.get(self.pointer)`
loop in `execute_all`, given the fetched `op`. -/
def exec_step (st : Interpreter) (op : OpCode) (writer stdin : List Nat) : IterOut :=
  match st.inner.perform_operation op writer stdin with
  | Option.none => IterOut.crashed
  | some (a, inner', w', s') =>
    let st' : Interpreter := { st with inner := inner' }
    match a with
    | Action.exit msg => IterOut.stopped msg st' w' s'
    | Action.jumpForward =>
      match st'.jmp_forward with
      | Option.none => IterOut.crashed
      | some st'' => IterOut.again st'' w' s'
    | Action.jumpBack =>
      -- `self.pointer = *self.jump_stack.last().unwrap(); continue;`
      match st'.jump_stack with
      | [] => IterOut.crashed
      | t :: _ => IterOut.again { st' with pointer := t } w' s'
    | Action.none =>
      -- the `match op` that follows an `Action::None` result
      let st2 : Option Interpreter :=
        match op, st'.jump_stack with
        | OpCode.JmpStart, js => some { st' with jump_stack := (st'.pointer + 1) :: js }
        | OpCode.JmpEnd, [] => Option.none     -- `self.jump_stack.pop().unwrap()`
        | OpCode.JmpEnd, _ :: rest => some { st' with jump_stack := rest }
        | _, _ => some st'                      -- tracing branch, delay = 0
      match st2 with
      | Option.none => IterOut.crashed
      | some st2' =>
        match st2'.increment_pointer with
        | Option.none => IterOut.crashed
        | some st3 => IterOut.again st3 w' s'

/-- Outcome of a whole run of `execute_all` (with fuel, since the source
loop need not terminate). -/
inductive RunResult where
  | done (st : Interpreter) (writer stdin : List Nat)
  | fatal (msg : String) (st : Interpreter) (writer stdin : List Nat)
  | crashed
  | spin (st : Interpreter) (writer stdin : List Nat)
deriving DecidableEq, Repr

/-- The `while let` loop of `execute_all`, driven by fuel.  `spin` means the
fuel ran out (the source loop is still running). -/
def run_loop : Nat → Interpreter → List Nat → List Nat → RunResult
  | 0, st, w, s => RunResult.spin st w s
  | Nat.succ fuel, st, w, s =>
    match st.ops.get? st.pointer with
    | Option.none => RunResult.done st w s
    | some op =>
      match exec_step st op w s with
      | IterOut.again st' w' s' => run_loop fuel st' w' s'
      | IterOut.stopped msg st' w' s' => RunResult.fatal msg st' w' s'
      | IterOut.crashed => RunResult.crashed

/-- `pub fn execute_all(&mut self, writer)`: reset the instruction pointer
to 0, then run the loop. -/
def execute_all (fuel : Nat) (st : Interpreter) (writer stdin : List Nat) : RunResult :=
  run_loop fuel { st with pointer := 0 } writer stdin

/-- The loop body of `fn parse`, with the accumulated `ops` and the
open-bracket counter explicit; byte values: `>` 62, `<` 60, `.` 46, `,` 44,
`+` 43, `-` 45, `[` 91, `]` 93. -/
def parse_go : List Nat → List OpCode → Nat → Except String (List OpCode)
  | [], ops, opn =>
    if opn ≠ 0 then Except.error "Unmatched '['" else Except.ok ops
  | b :: rest, ops, opn =>
    if b = 62 then parse_go rest (ops ++ [OpCode.MoveForward]) opn
    else if b = 60 then parse_go rest (ops ++ [OpCode.MoveBack]) opn
    else if b = 46 then parse_go rest (ops ++ [OpCode.Output]) opn
    else if b = 44 then parse_go rest (ops ++ [OpCode.Input]) opn
    else if b = 43 then parse_go rest (ops ++ [OpCode.Increment]) opn
    else if b = 45 then parse_go rest (ops ++ [OpCode.Decrement]) opn
    else if b = 91 then parse_go rest (ops ++ [OpCode.JmpStart]) (opn + 1)
    else if b = 93 then
      if opn = 0 then Except.error "Unmatched ']'"
      else parse_go rest (ops ++ [OpCode.JmpEnd]) (opn - 1)
    else parse_go rest ops opn

/-- `fn parse(buf) -> Result<Vec<OpCode>, String>`. -/
def parse (buf : List Nat) : Except String (List OpCode) :=
  parse_go buf [] 0

/-! ### Unfolding lemmas for `perform_operation` -/

theorem perform_operation_jmpStart_nonzero (st : BfArray) (v : Nat) (w s : List Nat)
    (hv : st.value = some (v + 1)) :
    st.perform_operation OpCode.JmpStart w s = some (Action.none, st, w, s) := by
  simp [BfArray.perform_operation, BfArray.jump_from, hv]

theorem perform_operation_jmpStart_zero (st : BfArray) (w s : List Nat)
    (hv : st.value = some 0) :
    st.perform_operation OpCode.JmpStart w s = some (Action.jumpForward, st, w, s) := by
  simp [BfArray.perform_operation, BfArray.jump_from, hv]

theorem perform_operation_jmpEnd_nonzero (st : BfArray) (v : Nat) (w s : List Nat)
    (hv : st.value = some (v + 1)) :
    st.perform_operation OpCode.JmpEnd w s = some (Action.jumpBack, st, w, s) := by
  simp [BfArray.perform_operation, BfArray.jump_from, hv]

theorem perform_operation_jmpEnd_zero (st : BfArray) (w s : List Nat)
    (hv : st.value = some 0) :
    st.perform_operation OpCode.JmpEnd w s = some (Action.none, st, w, s) := by
  simp [BfArray.perform_operation, BfArray.jump_from, hv]

/-! ### Bracket counting and balance -/

/-- Number of `JmpStart` instructions in a list. -/
def opens (l : List OpCode) : Nat := l.count OpCode.JmpStart

/-- Number of `JmpEnd` instructions in a list. -/
def closes (l : List OpCode) : Nat := l.count OpCode.JmpEnd

/-- The bracket-structure invariant of a `Program`: every prefix has at
most as many `JmpEnd` as `JmpStart`, and the totals agree. -/
def Balanced (l : List OpCode) : Prop :=
  (∀ n, closes (l.take n) ≤ opens (l.take n)) ∧ opens l = closes l

@[simp] theorem opens_nil : opens [] = 0 := rfl

@[simp] theorem closes_nil : closes [] = 0 := rfl

@[simp] theorem opens_single_MoveForward : opens [OpCode.MoveForward] = 0 := rfl

@[simp] theorem opens_single_MoveBack : opens [OpCode.MoveBack] = 0 := rfl

@[simp] theorem opens_single_Increment : opens [OpCode.Increment] = 0 := rfl

@[simp] theorem opens_single_Decrement : opens [OpCode.Decrement] = 0 := rfl

@[simp] theorem opens_single_Output : opens [OpCode.Output] = 0 := rfl

@[simp] theorem opens_single_Input : opens [OpCode.Input] = 0 := rfl

@[simp] theorem opens_single_JmpStart : opens [OpCode.JmpStart] = 1 := rfl

@[simp] theorem opens_single_JmpEnd : opens [OpCode.JmpEnd] = 0 := rfl

@[simp] theorem closes_single_MoveForward : closes [OpCode.MoveForward] = 0 := rfl

@[simp] theorem closes_single_MoveBack : closes [OpCode.MoveBack] = 0 := rfl

@[simp] theorem closes_single_Increment : closes [OpCode.Increment] = 0 := rfl

@[simp] theorem closes_single_Decrement : closes [OpCode.Decrement] = 0 := rfl

@[simp] theorem closes_single_Output : closes [OpCode.Output] = 0 := rfl

@[simp] theorem closes_single_Input : closes [OpCode.Input] = 0 := rfl

@[simp] theorem closes_single_JmpStart : closes [OpCode.JmpStart] = 0 := rfl

@[simp] theorem closes_single_JmpEnd : closes [OpCode.JmpEnd] = 1 := rfl

theorem opens_append (l₁ l₂ : List OpCode) : opens (l₁ ++ l₂) = opens l₁ + opens l₂ :=
  List.count_append ..

theorem closes_append (l₁ l₂ : List OpCode) : closes (l₁ ++ l₂) = closes l₁ + closes l₂ :=
  List.count_append ..

theorem opens_cons (x : OpCode) (l : List OpCode) :
    opens (x :: l) = opens [x] + opens l := by
  simpa using opens_append [x] l

theorem closes_cons (x : OpCode) (l : List OpCode) :
    closes (x :: l) = closes [x] + closes l := by
  simpa using closes_append [x] l

/-- Extending the all-prefixes condition across a snoc only needs the
condition for the full extended list. -/
theorem prefix_cond_snoc (acc : List OpCode) (x : OpCode)
    (h : ∀ n, closes (acc.take n) ≤ opens (acc.take n))
    (hfull : closes (acc ++ [x]) ≤ opens (acc ++ [x])) :
    ∀ n, closes ((acc ++ [x]).take n) ≤ opens ((acc ++ [x]).take n) := by
  intro n
  rcases le_or_lt n acc.length with hn | hn
  · rw [List.take_append_eq_append_take]
    have : [x].take (n - acc.length) = [] := by
      have : n - acc.length = 0 := Nat.sub_eq_zero_of_le hn
      simp [this]
    rw [this, List.append_nil]
    exact h n
  · have : (acc ++ [x]).take n = acc ++ [x] := by
      apply List.take_of_length_le
      simp
      omega
    rw [this]
    exact hfull

/-- Invariant of the parse loop: a successful parse yields a balanced
program. -/
theorem parse_go_balanced :
    ∀ (rest : List Nat) (acc : List OpCode) (opn : Nat) (ops : List OpCode),
      opens acc = closes acc + opn →
      (∀ n, closes (acc.take n) ≤ opens (acc.take n)) →
      parse_go rest acc opn = Except.ok ops → Balanced ops := by
  intro rest
  induction rest with
  | nil =>
    intro acc opn ops hcnt hpre hok
    unfold parse_go at hok
    by_cases h0 : opn = 0
    · subst h0
      simp at hok
      subst hok
      exact ⟨hpre, by omega⟩
    · simp [h0] at hok
  | cons b rest ih =>
    intro acc opn ops hcnt hpre hok
    unfold parse_go at hok
    have step : ∀ (x : OpCode) (opn' : Nat),
        opens (acc ++ [x]) = closes (acc ++ [x]) + opn' →
        closes (acc ++ [x]) ≤ opens (acc ++ [x]) →
        parse_go rest (acc ++ [x]) opn' = Except.ok ops → Balanced ops := by
      intro x opn' hcnt' hfull hok'
      exact ih (acc ++ [x]) opn' ops hcnt' (prefix_cond_snoc acc x hpre hfull) hok'
    split_ifs at hok with h1 h2 h3 h4 h5 h6 h7 h8 h9
    · refine step _ opn ?_ ?_ hok <;> (rw [opens_append, closes_append]; simp; omega)
    · refine step _ opn ?_ ?_ hok <;> (rw [opens_append, closes_append]; simp; omega)
    · refine step _ opn ?_ ?_ hok <;> (rw [opens_append, closes_append]; simp; omega)
    · refine step _ opn ?_ ?_ hok <;> (rw [opens_append, closes_append]; simp; omega)
    · refine step _ opn ?_ ?_ hok <;> (rw [opens_append, closes_append]; simp; omega)
    · refine step _ opn ?_ ?_ hok <;> (rw [opens_append, closes_append]; simp; omega)
    · refine step _ (opn + 1) ?_ ?_ hok <;> (rw [opens_append, closes_append]; simp; omega)
    · refine step _ (opn - 1) ?_ ?_ hok <;> (rw [opens_append, closes_append]; simp; omega)
    · exact ih acc opn ops hcnt hpre hok

/-- A successfully parsed program is balanced. -/
theorem parse_balanced (buf : List Nat) (ops : List OpCode)
    (h : parse buf = Except.ok ops) : Balanced ops :=
  parse_go_balanced buf [] 0 ops (by simp [opens, closes]) (by simp [opens, closes]) h

/-! ### A specification device for the jump stack

`open_stack ops ip` is the stack of return targets (`position of an
unmatched JmpStart` + 1, innermost first) left by scanning the first `ip`
instructions.  The execution invariant proved below says the interpreter's
`jump_stack` always equals it. -/

/-- Effect of one instruction at absolute position `i` on the stack of
return targets. -/
def stack_step (i : Nat) (op : OpCode) (st : List Nat) : List Nat :=
  match op with
  | OpCode.JmpStart => (i + 1) :: st
  | OpCode.JmpEnd => st.tail
  | _ => st

/-- Run `stack_step` over a list of instructions starting at absolute
position `i`. -/
def stack_run : List OpCode → Nat → List Nat → List Nat
  | [], _, st => st
  | op :: rest, i, st => stack_run rest (i + 1) (stack_step i op st)

/-- The canonical jump stack after the first `ip` instructions. -/
def open_stack (ops : List OpCode) (ip : Nat) : List Nat :=
  stack_run (ops.take ip) 0 []

/-- Every prefix of `l` has at most `k` more `JmpEnd` than `JmpStart`. -/
def PrefixSlack (k : Nat) (l : List OpCode) : Prop :=
  ∀ n, closes (l.take n) ≤ opens (l.take n) + k

/-- A fully matched segment: no prefix closes more than it opens, and the
totals agree. -/
def WellMatched (l : List OpCode) : Prop :=
  PrefixSlack 0 l ∧ opens l = closes l

theorem Balanced.prefixSlack (l : List OpCode) (h : Balanced l) : PrefixSlack 0 l := by
  intro n
  have := h.1 n
  omega

theorem Balanced.wellMatched (l : List OpCode) (h : Balanced l) : WellMatched l :=
  ⟨h.prefixSlack, h.2⟩

theorem PrefixSlack.head_le (k : Nat) (rest : List OpCode)
    (h : PrefixSlack k (OpCode.JmpEnd :: rest)) : 1 ≤ k := by
  have := h 1
  rw [List.take_succ_cons, List.take_zero] at this
  simp at this
  omega

theorem PrefixSlack.tail_jmpStart (k : Nat) (rest : List OpCode)
    (h : PrefixSlack k (OpCode.JmpStart :: rest)) : PrefixSlack (k + 1) rest := by
  intro n
  have := h (n + 1)
  rw [List.take_succ_cons, closes_cons, opens_cons] at this
  simp at this
  omega

theorem PrefixSlack.tail_jmpEnd (k : Nat) (rest : List OpCode)
    (h : PrefixSlack (k + 1) (OpCode.JmpEnd :: rest)) : PrefixSlack k rest := by
  intro n
  have := h (n + 1)
  rw [List.take_succ_cons, closes_cons, opens_cons] at this
  simp at this
  omega

theorem PrefixSlack.tail_other (k : Nat) (op : OpCode) (rest : List OpCode)
    (ho : opens [op] = 0) (hc : closes [op] = 0)
    (h : PrefixSlack k (op :: rest)) : PrefixSlack k rest := by
  intro n
  have := h (n + 1)
  rw [List.take_succ_cons, closes_cons, opens_cons, ho, hc] at this
  omega

theorem PrefixSlack.cons_jmpStart (k : Nat) (rest : List OpCode)
    (h : PrefixSlack (k + 1) rest) : PrefixSlack k (OpCode.JmpStart :: rest) := by
  intro n
  cases n with
  | zero => simp
  | succ n =>
    have := h n
    rw [List.take_succ_cons, closes_cons, opens_cons]
    simp
    omega

theorem PrefixSlack.cons_jmpEnd (k : Nat) (rest : List OpCode)
    (h : PrefixSlack k rest) : PrefixSlack (k + 1) (OpCode.JmpEnd :: rest) := by
  intro n
  cases n with
  | zero => simp
  | succ n =>
    have := h n
    rw [List.take_succ_cons, closes_cons, opens_cons]
    simp
    omega

theorem PrefixSlack.cons_other (k : Nat) (op : OpCode) (rest : List OpCode)
    (ho : opens [op] = 0) (hc : closes [op] = 0)
    (h : PrefixSlack k rest) : PrefixSlack k (op :: rest) := by
  intro n
  cases n with
  | zero => simp
  | succ n =>
    have := h n
    rw [List.take_succ_cons, closes_cons, opens_cons, ho, hc]
    omega

theorem stack_run_append (l₁ l₂ : List OpCode) (i : Nat) (st : List Nat) :
    stack_run (l₁ ++ l₂) i st = stack_run l₂ (i + l₁.length) (stack_run l₁ i st) := by
  induction l₁ generalizing i st with
  | nil => simp [stack_run]
  | cons op rest ih =>
    rw [List.cons_append]
    show stack_run (rest ++ l₂) (i + 1) (stack_step i op st) = _
    rw [ih]
    have : i + 1 + rest.length = i + (op :: rest).length := by
      simp
      omega
    rw [this]
    rfl

/-- As long as the running count never dips below the initial portion
`st₁`, the rest of the stack `st₂` is untouched. -/
theorem stack_run_slack :
    ∀ (l : List OpCode) (i : Nat) (st₁ st₂ : List Nat),
      PrefixSlack st₁.length l →
      stack_run l i (st₁ ++ st₂) = stack_run l i st₁ ++ st₂ := by
  intro l
  induction l with
  | nil => intro i st₁ st₂ _; rfl
  | cons op rest ih =>
    intro i st₁ st₂ h
    cases op with
    | JmpStart =>
      show stack_run rest (i + 1) ((i + 1) :: (st₁ ++ st₂)) = stack_run rest (i + 1) ((i + 1) :: st₁) ++ st₂
      exact ih (i + 1) ((i + 1) :: st₁) st₂ (by simpa using h.tail_jmpStart st₁.length rest)
    | JmpEnd =>
      have h1 : 1 ≤ st₁.length := h.head_le st₁.length rest
      match st₁, h1 with
      | x :: st₁', _ =>
        show stack_run rest (i + 1) (st₁' ++ st₂) = stack_run rest (i + 1) st₁' ++ st₂
        refine ih (i + 1) st₁' st₂ ?_
        have := PrefixSlack.tail_jmpEnd st₁'.length rest (by simpa using h)
        exact this
    | MoveForward =>
      exact ih (i + 1) st₁ st₂ (h.tail_other st₁.length OpCode.MoveForward rest rfl rfl)
    | MoveBack =>
      exact ih (i + 1) st₁ st₂ (h.tail_other st₁.length OpCode.MoveBack rest rfl rfl)
    | Increment =>
      exact ih (i + 1) st₁ st₂ (h.tail_other st₁.length OpCode.Increment rest rfl rfl)
    | Decrement =>
      exact ih (i + 1) st₁ st₂ (h.tail_other st₁.length OpCode.Decrement rest rfl rfl)
    | Output =>
      exact ih (i + 1) st₁ st₂ (h.tail_other st₁.length OpCode.Output rest rfl rfl)
    | Input =>
      exact ih (i + 1) st₁ st₂ (h.tail_other st₁.length OpCode.Input rest rfl rfl)

/-- Net stack length after a slack-respecting run. -/
theorem stack_run_length :
    ∀ (l : List OpCode) (i : Nat) (st : List Nat),
      PrefixSlack st.length l →
      (stack_run l i st).length + closes l = st.length + opens l := by
  intro l
  induction l with
  | nil => intro i st _; simp [stack_run]
  | cons op rest ih =>
    intro i st h
    cases op with
    | JmpStart =>
      have := ih (i + 1) ((i + 1) :: st) (by simpa using h.tail_jmpStart st.length rest)
      show (stack_run rest (i + 1) ((i + 1) :: st)).length + closes (OpCode.JmpStart :: rest) = _
      rw [closes_cons, opens_cons]
      simp at this ⊢
      omega
    | JmpEnd =>
      have h1 : 1 ≤ st.length := h.head_le st.length rest
      match st, h1 with
      | x :: st', _ =>
        have := ih (i + 1) st' (PrefixSlack.tail_jmpEnd st'.length rest (by simpa using h))
        show (stack_run rest (i + 1) st').length + closes (OpCode.JmpEnd :: rest) = _
        rw [closes_cons, opens_cons]
        simp at this ⊢
        omega
    | MoveForward =>
      have := ih (i + 1) st (h.tail_other st.length OpCode.MoveForward rest rfl rfl)
      show (stack_run rest (i + 1) st).length + closes (OpCode.MoveForward :: rest) = _
      rw [closes_cons, opens_cons]
      simp at this ⊢
      omega
    | MoveBack =>
      have := ih (i + 1) st (h.tail_other st.length OpCode.MoveBack rest rfl rfl)
      show (stack_run rest (i + 1) st).length + closes (OpCode.MoveBack :: rest) = _
      rw [closes_cons, opens_cons]
      simp at this ⊢
      omega
    | Increment =>
      have := ih (i + 1) st (h.tail_other st.length OpCode.Increment rest rfl rfl)
      show (stack_run rest (i + 1) st).length + closes (OpCode.Increment :: rest) = _
      rw [closes_cons, opens_cons]
      simp at this ⊢
      omega
    | Decrement =>
      have := ih (i + 1) st (h.tail_other st.length OpCode.Decrement rest rfl rfl)
      show (stack_run rest (i + 1) st).length + closes (OpCode.Decrement :: rest) = _
      rw [closes_cons, opens_cons]
      simp at this ⊢
      omega
    | Output =>
      have := ih (i + 1) st (h.tail_other st.length OpCode.Output rest rfl rfl)
      show (stack_run rest (i + 1) st).length + closes (OpCode.Output :: rest) = _
      rw [closes_cons, opens_cons]
      simp at this ⊢
      omega
    | Input =>
      have := ih (i + 1) st (h.tail_other st.length OpCode.Input rest rfl rfl)
      show (stack_run rest (i + 1) st).length + closes (OpCode.Input :: rest) = _
      rw [closes_cons, opens_cons]
      simp at this ⊢
      omega

/-- Running over a fully matched segment restores the stack. -/
theorem stack_run_wellMatched (l : List OpCode) (i : Nat) (st : List Nat)
    (h : WellMatched l) : stack_run l i st = st := by
  have h0 : stack_run l i ([] ++ st) = stack_run l i [] ++ st := by
    apply stack_run_slack
    simpa using h.1
  have hlen : (stack_run l i []).length + closes l = ([] : List Nat).length + opens l :=
    stack_run_length l i [] (by simpa using h.1)
  have : (stack_run l i []).length = 0 := by
    have := h.2
    simp at hlen
    omega
  have hemp : stack_run l i [] = [] := List.length_eq_zero.mp this
  rw [hemp] at h0
  simpa using h0

theorem list_get?_tail (S : List Nat) (k : Nat) : S.tail.get? k = S.get? (k + 1) := by
  cases S <;> simp

/-- What it means for `S` to be the canonical stack of `l`: every entry `t`
at depth `k` from the top marks a position such that the segment after `t`
is close-free at slack 0 and has net `k` extra `JmpStart`. -/
def StackSpec (l : List OpCode) (S : List Nat) : Prop :=
  ∀ k t, S.get? k = some t →
    t ≤ l.length ∧ PrefixSlack 0 (l.drop t) ∧
    opens (l.drop t) = closes (l.drop t) + k

theorem drop_append_single (l : List OpCode) (x : OpCode) (t : Nat)
    (ht : t ≤ l.length) : (l ++ [x]).drop t = l.drop t ++ [x] := by
  rw [List.drop_append_eq_append_drop]
  have : t - l.length = 0 := Nat.sub_eq_zero_of_le ht
  rw [this]
  rfl

/-- `PrefixSlack 0` extends across a snoc given the full-list count
condition. -/
theorem prefixSlack_zero_snoc (seg : List OpCode) (x : OpCode)
    (h : PrefixSlack 0 seg)
    (hfull : closes (seg ++ [x]) ≤ opens (seg ++ [x])) :
    PrefixSlack 0 (seg ++ [x]) := by
  intro n
  have := prefix_cond_snoc seg x (fun m => by have := h m; omega) hfull n
  omega

/-- The canonical stack `stack_run l 0 []` satisfies `StackSpec l`. -/
theorem stack_spec : ∀ (l : List OpCode), StackSpec l (stack_run l 0 []) := by
  intro l
  induction l using List.reverseRecOn with
  | nil => intro k t hkt; simp [stack_run] at hkt
  | append_singleton l op ih =>
    have hrun : stack_run (l ++ [op]) 0 [] = stack_step l.length op (stack_run l 0 []) := by
      rw [stack_run_append]
      simp [stack_run]
    intro k t hkt
    rw [hrun] at hkt
    have hlen' : (l ++ [op]).length = l.length + 1 := by simp
    cases op with
    | JmpStart =>
      simp only [stack_step] at hkt
      cases k with
      | zero =>
        simp at hkt
        subst hkt
        refine ⟨by omega, ?_, ?_⟩
        · have : (l ++ [OpCode.JmpStart]).drop (l.length + 1) = [] := by
            apply List.drop_eq_nil_of_le
            omega
          rw [this]
          intro n
          simp
        · have : (l ++ [OpCode.JmpStart]).drop (l.length + 1) = [] := by
            apply List.drop_eq_nil_of_le
            omega
          rw [this]
          simp
      | succ k =>
        have hkt' : (stack_run l 0 []).get? k = some t := by simpa using hkt
        obtain ⟨ht, hsla, hcnt⟩ := ih k t hkt'
        have hdrop : (l ++ [OpCode.JmpStart]).drop t = l.drop t ++ [OpCode.JmpStart] :=
          drop_append_single l _ t ht
        refine ⟨by omega, ?_, ?_⟩
        · rw [hdrop]
          refine prefixSlack_zero_snoc _ _ hsla ?_
          rw [opens_append, closes_append]
          simp
          omega
        · rw [hdrop, opens_append, closes_append]
          simp
          omega
    | JmpEnd =>
      simp only [stack_step] at hkt
      rw [list_get?_tail] at hkt
      obtain ⟨ht, hsla, hcnt⟩ := ih (k + 1) t hkt
      have hdrop : (l ++ [OpCode.JmpEnd]).drop t = l.drop t ++ [OpCode.JmpEnd] :=
        drop_append_single l _ t ht
      refine ⟨by omega, ?_, ?_⟩
      · rw [hdrop]
        refine prefixSlack_zero_snoc _ _ hsla ?_
        rw [opens_append, closes_append]
        simp
        omega
      · rw [hdrop, opens_append, closes_append]
        simp
        omega
    | MoveForward =>
      simp only [stack_step] at hkt
      obtain ⟨ht, hsla, hcnt⟩ := ih k t hkt
      have hdrop : (l ++ [OpCode.MoveForward]).drop t = l.drop t ++ [OpCode.MoveForward] :=
        drop_append_single l _ t ht
      refine ⟨by omega, ?_, ?_⟩
      · rw [hdrop]
        refine prefixSlack_zero_snoc _ _ hsla ?_
        rw [opens_append, closes_append]
        simp
        omega
      · rw [hdrop, opens_append, closes_append]
        simp
        omega
    | MoveBack =>
      simp only [stack_step] at hkt
      obtain ⟨ht, hsla, hcnt⟩ := ih k t hkt
      have hdrop : (l ++ [OpCode.MoveBack]).drop t = l.drop t ++ [OpCode.MoveBack] :=
        drop_append_single l _ t ht
      refine ⟨by omega, ?_, ?_⟩
      · rw [hdrop]
        refine prefixSlack_zero_snoc _ _ hsla ?_
        rw [opens_append, closes_append]
        simp
        omega
      · rw [hdrop, opens_append, closes_append]
        simp
        omega
    | Increment =>
      simp only [stack_step] at hkt
      obtain ⟨ht, hsla, hcnt⟩ := ih k t hkt
      have hdrop : (l ++ [OpCode.Increment]).drop t = l.drop t ++ [OpCode.Increment] :=
        drop_append_single l _ t ht
      refine ⟨by omega, ?_, ?_⟩
      · rw [hdrop]
        refine prefixSlack_zero_snoc _ _ hsla ?_
        rw [opens_append, closes_append]
        simp
        omega
      · rw [hdrop, opens_append, closes_append]
        simp
        omega
    | Decrement =>
      simp only [stack_step] at hkt
      obtain ⟨ht, hsla, hcnt⟩ := ih k t hkt
      have hdrop : (l ++ [OpCode.Decrement]).drop t = l.drop t ++ [OpCode.Decrement] :=
        drop_append_single l _ t ht
      refine ⟨by omega, ?_, ?_⟩
      · rw [hdrop]
        refine prefixSlack_zero_snoc _ _ hsla ?_
        rw [opens_append, closes_append]
        simp
        omega
      · rw [hdrop, opens_append, closes_append]
        simp
        omega
    | Output =>
      simp only [stack_step] at hkt
      obtain ⟨ht, hsla, hcnt⟩ := ih k t hkt
      have hdrop : (l ++ [OpCode.Output]).drop t = l.drop t ++ [OpCode.Output] :=
        drop_append_single l _ t ht
      refine ⟨by omega, ?_, ?_⟩
      · rw [hdrop]
        refine prefixSlack_zero_snoc _ _ hsla ?_
        rw [opens_append, closes_append]
        simp
        omega
      · rw [hdrop, opens_append, closes_append]
        simp
        omega
    | Input =>
      simp only [stack_step] at hkt
      obtain ⟨ht, hsla, hcnt⟩ := ih k t hkt
      have hdrop : (l ++ [OpCode.Input]).drop t = l.drop t ++ [OpCode.Input] :=
        drop_append_single l _ t ht
      refine ⟨by omega, ?_, ?_⟩
      · rw [hdrop]
        refine prefixSlack_zero_snoc _ _ hsla ?_
        rw [opens_append, closes_append]
        simp
        omega
      · rw [hdrop, opens_append, closes_append]
        simp
        omega

/-! ### Correctness of the forward-jump scan -/

theorem drop_cons_of_get? (ops : List OpCode) (x : OpCode) (p : Nat)
    (hq : ops.get? p = some x) : ops.drop p = x :: ops.drop (p + 1) := by
  obtain ⟨h, hx⟩ := List.get?_eq_some.mp hq
  rw [List.drop_eq_getElem_cons h]
  exact congrArg (fun y => y :: ops.drop (p + 1)) hx

theorem take_drop_cons (ops : List OpCode) (x : OpCode) (p m : Nat)
    (hpm : p < m) (hm : m ≤ ops.length) (hq : ops.get? p = some x) :
    (ops.take m).drop p = x :: (ops.take m).drop (p + 1) := by
  have hlen : (ops.take m).length = m := by rw [List.length_take]; omega
  have hget : (ops.take m).get? p = some x := by
    rw [List.get?_eq_getElem?] at hq ⊢
    rw [List.getElem?_take, if_pos hpm]
    exact hq
  exact drop_cons_of_get? (ops.take m) x p hget

/-- Specification of a successful forward scan: `m` is a `JmpEnd` strictly
after `p`, and the instructions strictly between `p` and `m` close
`depth` more brackets than they open while never closing more than
`depth` early. -/
theorem jmp_forward_go_spec :
    ∀ (fuel : Nat) (ops : List OpCode) (p depth m : Nat),
      ops.length - p ≤ fuel →
      jmp_forward_go ops p depth = some m →
      p < m ∧ m < ops.length ∧ ops.get? m = some OpCode.JmpEnd ∧
      PrefixSlack depth ((ops.take m).drop (p + 1)) ∧
      closes ((ops.take m).drop (p + 1)) = opens ((ops.take m).drop (p + 1)) + depth := by
  intro fuel
  induction fuel with
  | zero =>
    intro ops p depth m hf h
    rw [jmp_forward_go] at h
    by_cases hp : p < USIZE_MAX
    · rw [if_pos hp, dif_neg (by omega : ¬ p + 1 < ops.length)] at h
      simp at h
    · rw [if_neg hp] at h
      simp at h
  | succ fuel ih =>
    intro ops p depth m hf h
    rw [jmp_forward_go] at h
    by_cases hp : p < USIZE_MAX
    case neg => rw [if_neg hp] at h; simp at h
    rw [if_pos hp] at h
    by_cases hplt : p + 1 < ops.length
    case neg => rw [dif_neg hplt] at h; simp at h
    rw [dif_pos hplt] at h
    have hgq : ops.get? (p + 1) = some (ops.get ⟨p + 1, hplt⟩) := List.get?_eq_get hplt
    cases hop : ops.get ⟨p + 1, hplt⟩ with
    | JmpStart =>
      rw [hop] at h hgq
      have h' : jmp_forward_go ops (p + 1) (depth + 1) = some m := h
      obtain ⟨h1, h2, h3, h4, h5⟩ := ih ops (p + 1) (depth + 1) m (by omega) h'
      have hseg : (ops.take m).drop (p + 1) =
          OpCode.JmpStart :: (ops.take m).drop (p + 1 + 1) :=
        take_drop_cons ops _ (p + 1) m h1 (le_of_lt h2) hgq
      refine ⟨by omega, h2, h3, ?_, ?_⟩
      · rw [hseg]
        exact PrefixSlack.cons_jmpStart depth _ h4
      · rw [hseg, closes_cons, opens_cons]
        simp
        omega
    | JmpEnd =>
      rw [hop] at h hgq
      have h' : (if depth = 0 then some (p + 1)
          else jmp_forward_go ops (p + 1) (depth - 1)) = some m := h
      by_cases hd0 : depth = 0
      · rw [if_pos hd0] at h'
        have hm : m = p + 1 := (Option.some.inj h').symm
        subst hm
        subst hd0
        have hnil : (ops.take (p + 1)).drop (p + 1) = [] := by
          apply List.drop_eq_nil_of_le
          rw [List.length_take]
          omega
        refine ⟨by omega, hplt, hgq, ?_, ?_⟩
        · rw [hnil]; intro n; simp
        · rw [hnil]; simp
      · rw [if_neg hd0] at h'
        obtain ⟨h1, h2, h3, h4, h5⟩ := ih ops (p + 1) (depth - 1) m (by omega) h'
        have hseg : (ops.take m).drop (p + 1) =
            OpCode.JmpEnd :: (ops.take m).drop (p + 1 + 1) :=
          take_drop_cons ops _ (p + 1) m h1 (le_of_lt h2) hgq
        refine ⟨by omega, h2, h3, ?_, ?_⟩
        · rw [hseg]
          have := PrefixSlack.cons_jmpEnd (depth - 1) _ h4
          have e : depth - 1 + 1 = depth := by omega
          rwa [e] at this
        · rw [hseg, closes_cons, opens_cons]
          simp
          omega
    | MoveForward =>
      rw [hop] at h hgq
      have h' : jmp_forward_go ops (p + 1) depth = some m := h
      obtain ⟨h1, h2, h3, h4, h5⟩ := ih ops (p + 1) depth m (by omega) h'
      have hseg : (ops.take m).drop (p + 1) =
          OpCode.MoveForward :: (ops.take m).drop (p + 1 + 1) :=
        take_drop_cons ops _ (p + 1) m h1 (le_of_lt h2) hgq
      refine ⟨by omega, h2, h3, ?_, ?_⟩
      · rw [hseg]
        exact PrefixSlack.cons_other depth _ _ rfl rfl h4
      · rw [hseg, closes_cons, opens_cons]
        simp
        omega
    | MoveBack =>
      rw [hop] at h hgq
      have h' : jmp_forward_go ops (p + 1) depth = some m := h
      obtain ⟨h1, h2, h3, h4, h5⟩ := ih ops (p + 1) depth m (by omega) h'
      have hseg : (ops.take m).drop (p + 1) =
          OpCode.MoveBack :: (ops.take m).drop (p + 1 + 1) :=
        take_drop_cons ops _ (p + 1) m h1 (le_of_lt h2) hgq
      refine ⟨by omega, h2, h3, ?_, ?_⟩
      · rw [hseg]
        exact PrefixSlack.cons_other depth _ _ rfl rfl h4
      · rw [hseg, closes_cons, opens_cons]
        simp
        omega
    | Increment =>
      rw [hop] at h hgq
      have h' : jmp_forward_go ops (p + 1) depth = some m := h
      obtain ⟨h1, h2, h3, h4, h5⟩ := ih ops (p + 1) depth m (by omega) h'
      have hseg : (ops.take m).drop (p + 1) =
          OpCode.Increment :: (ops.take m).drop (p + 1 + 1) :=
        take_drop_cons ops _ (p + 1) m h1 (le_of_lt h2) hgq
      refine ⟨by omega, h2, h3, ?_, ?_⟩
      · rw [hseg]
        exact PrefixSlack.cons_other depth _ _ rfl rfl h4
      · rw [hseg, closes_cons, opens_cons]
        simp
        omega
    | Decrement =>
      rw [hop] at h hgq
      have h' : jmp_forward_go ops (p + 1) depth = some m := h
      obtain ⟨h1, h2, h3, h4, h5⟩ := ih ops (p + 1) depth m (by omega) h'
      have hseg : (ops.take m).drop (p + 1) =
          OpCode.Decrement :: (ops.take m).drop (p + 1 + 1) :=
        take_drop_cons ops _ (p + 1) m h1 (le_of_lt h2) hgq
      refine ⟨by omega, h2, h3, ?_, ?_⟩
      · rw [hseg]
        exact PrefixSlack.cons_other depth _ _ rfl rfl h4
      · rw [hseg, closes_cons, opens_cons]
        simp
        omega
    | Output =>
      rw [hop] at h hgq
      have h' : jmp_forward_go ops (p + 1) depth = some m := h
      obtain ⟨h1, h2, h3, h4, h5⟩ := ih ops (p + 1) depth m (by omega) h'
      have hseg : (ops.take m).drop (p + 1) =
          OpCode.Output :: (ops.take m).drop (p + 1 + 1) :=
        take_drop_cons ops _ (p + 1) m h1 (le_of_lt h2) hgq
      refine ⟨by omega, h2, h3, ?_, ?_⟩
      · rw [hseg]
        exact PrefixSlack.cons_other depth _ _ rfl rfl h4
      · rw [hseg, closes_cons, opens_cons]
        simp
        omega
    | Input =>
      rw [hop] at h hgq
      have h' : jmp_forward_go ops (p + 1) depth = some m := h
      obtain ⟨h1, h2, h3, h4, h5⟩ := ih ops (p + 1) depth m (by omega) h'
      have hseg : (ops.take m).drop (p + 1) =
          OpCode.Input :: (ops.take m).drop (p + 1 + 1) :=
        take_drop_cons ops _ (p + 1) m h1 (le_of_lt h2) hgq
      refine ⟨by omega, h2, h3, ?_, ?_⟩
      · rw [hseg]
        exact PrefixSlack.cons_other depth _ _ rfl rfl h4
      · rw [hseg, closes_cons, opens_cons]
        simp
        omega

/-- The forward scan succeeds whenever the instructions after `p` close at
least `depth + 1` more brackets than they open. -/
theorem jmp_forward_go_total :
    ∀ (fuel : Nat) (ops : List OpCode) (p depth : Nat),
      ops.length - p ≤ fuel →
      ops.length ≤ USIZE_MAX →
      opens (ops.drop (p + 1)) + depth < closes (ops.drop (p + 1)) →
      (jmp_forward_go ops p depth).isSome := by
  intro fuel
  induction fuel with
  | zero =>
    intro ops p depth hf hus hcl
    have : ops.drop (p + 1) = [] := List.drop_eq_nil_of_le (by omega)
    rw [this] at hcl
    simp at hcl
  | succ fuel ih =>
    intro ops p depth hf hus hcl
    have hplt : p + 1 < ops.length := by
      by_contra hcon
      have : ops.drop (p + 1) = [] := List.drop_eq_nil_of_le (by omega)
      rw [this] at hcl
      simp at hcl
    have hp : p < USIZE_MAX := by omega
    have hgq : ops.get? (p + 1) = some (ops.get ⟨p + 1, hplt⟩) := List.get?_eq_get hplt
    rw [jmp_forward_go, if_pos hp, dif_pos hplt]
    cases hop : ops.get ⟨p + 1, hplt⟩ with
    | JmpStart =>
      rw [hop] at hgq
      have hcons : ops.drop (p + 1) = OpCode.JmpStart :: ops.drop (p + 1 + 1) :=
        drop_cons_of_get? ops _ (p + 1) hgq
      rw [hcons, closes_cons, opens_cons] at hcl
      show (jmp_forward_go ops (p + 1) (depth + 1)).isSome
      refine ih ops (p + 1) (depth + 1) (by omega) hus ?_
      simp at hcl
      omega
    | JmpEnd =>
      rw [hop] at hgq
      have hcons : ops.drop (p + 1) = OpCode.JmpEnd :: ops.drop (p + 1 + 1) :=
        drop_cons_of_get? ops _ (p + 1) hgq
      rw [hcons, closes_cons, opens_cons] at hcl
      show (if depth = 0 then some (p + 1)
          else jmp_forward_go ops (p + 1) (depth - 1)).isSome
      by_cases hd0 : depth = 0
      · rw [if_pos hd0]
        rfl
      · rw [if_neg hd0]
        refine ih ops (p + 1) (depth - 1) (by omega) hus ?_
        simp at hcl
        omega
    | MoveForward =>
      rw [hop] at hgq
      have hcons : ops.drop (p + 1) = OpCode.MoveForward :: ops.drop (p + 1 + 1) :=
        drop_cons_of_get? ops _ (p + 1) hgq
      rw [hcons, closes_cons, opens_cons] at hcl
      show (jmp_forward_go ops (p + 1) depth).isSome
      refine ih ops (p + 1) depth (by omega) hus ?_
      simp at hcl
      omega
    | MoveBack =>
      rw [hop] at hgq
      have hcons : ops.drop (p + 1) = OpCode.MoveBack :: ops.drop (p + 1 + 1) :=
        drop_cons_of_get? ops _ (p + 1) hgq
      rw [hcons, closes_cons, opens_cons] at hcl
      show (jmp_forward_go ops (p + 1) depth).isSome
      refine ih ops (p + 1) depth (by omega) hus ?_
      simp at hcl
      omega
    | Increment =>
      rw [hop] at hgq
      have hcons : ops.drop (p + 1) = OpCode.Increment :: ops.drop (p + 1 + 1) :=
        drop_cons_of_get? ops _ (p + 1) hgq
      rw [hcons, closes_cons, opens_cons] at hcl
      show (jmp_forward_go ops (p + 1) depth).isSome
      refine ih ops (p + 1) depth (by omega) hus ?_
      simp at hcl
      omega
    | Decrement =>
      rw [hop] at hgq
      have hcons : ops.drop (p + 1) = OpCode.Decrement :: ops.drop (p + 1 + 1) :=
        drop_cons_of_get? ops _ (p + 1) hgq
      rw [hcons, closes_cons, opens_cons] at hcl
      show (jmp_forward_go ops (p + 1) depth).isSome
      refine ih ops (p + 1) depth (by omega) hus ?_
      simp at hcl
      omega
    | Output =>
      rw [hop] at hgq
      have hcons : ops.drop (p + 1) = OpCode.Output :: ops.drop (p + 1 + 1) :=
        drop_cons_of_get? ops _ (p + 1) hgq
      rw [hcons, closes_cons, opens_cons] at hcl
      show (jmp_forward_go ops (p + 1) depth).isSome
      refine ih ops (p + 1) depth (by omega) hus ?_
      simp at hcl
      omega
    | Input =>
      rw [hop] at hgq
      have hcons : ops.drop (p + 1) = OpCode.Input :: ops.drop (p + 1 + 1) :=
        drop_cons_of_get? ops _ (p + 1) hgq
      rw [hcons, closes_cons, opens_cons] at hcl
      show (jmp_forward_go ops (p + 1) depth).isSome
      refine ih ops (p + 1) depth (by omega) hus ?_
      simp at hcl
      omega

/-! ### Small characterizations of the tape operations -/

theorem checked_add_some (x y : Nat) (h : checked_add x = some y) :
    y = x + 1 ∧ x < USIZE_MAX := by
  unfold checked_add at h
  split at h
  · exact ⟨(Option.some.inj h).symm, by assumption⟩
  · simp at h

theorem checked_add_of_lt (x : Nat) (h : x < USIZE_MAX) :
    checked_add x = some (x + 1) := by
  unfold checked_add
  rw [if_pos h]

theorem checked_sub_of_zero : checked_sub 0 = Option.none := rfl

theorem checked_sub_of_succ (x : Nat) : checked_sub (x + 1) = some x := by
  unfold checked_sub
  simp

/-- An action produced by `perform_operation` can be a forward jump only
for `JmpStart` and a backward jump only for `JmpEnd`. -/
theorem perform_operation_action (st : BfArray) (op : OpCode) (w s : List Nat)
    (a : Action) (inner' : BfArray) (w2 s2 : List Nat)
    (h : st.perform_operation op w s = some (a, inner', w2, s2)) :
    (a = Action.jumpForward → op = OpCode.JmpStart) ∧
    (a = Action.jumpBack → op = OpCode.JmpEnd) := by
  cases op with
  | Output =>
    simp only [BfArray.perform_operation, BfArray.output] at h
    simp at h
    obtain ⟨v, hv, ha, -, -, -⟩ := h
    subst ha
    exact ⟨fun hc => by simp at hc, fun hc => by simp at hc⟩
  | Input =>
    cases s with
    | nil =>
      simp only [BfArray.perform_operation, BfArray.input] at h
      simp at h
      obtain ⟨st3, hsv, ha, -, -, -⟩ := h
      subst ha
      exact ⟨fun hc => by simp at hc, fun hc => by simp at hc⟩
    | cons b rest =>
      simp only [BfArray.perform_operation, BfArray.input] at h
      simp at h
      obtain ⟨st3, hsv, ha, -, -, -⟩ := h
      subst ha
      exact ⟨fun hc => by simp at hc, fun hc => by simp at hc⟩
  | Increment =>
    simp only [BfArray.perform_operation, BfArray.modify_value] at h
    cases hv : st.value <;> rw [hv] at h
    · simp at h
    · simp at h
      obtain ⟨st3, hsv, ha, -, -, -⟩ := h
      subst ha
      exact ⟨fun hc => by simp at hc, fun hc => by simp at hc⟩
  | Decrement =>
    simp only [BfArray.perform_operation, BfArray.modify_value] at h
    cases hv : st.value <;> rw [hv] at h
    · simp at h
    · simp at h
      obtain ⟨st3, hsv, ha, -, -, -⟩ := h
      subst ha
      exact ⟨fun hc => by simp at hc, fun hc => by simp at hc⟩
  | MoveForward =>
    simp only [BfArray.perform_operation, BfArray.move_pointer] at h
    cases hca : checked_add st.pointer <;> rw [hca] at h <;> simp at h
    · obtain ⟨ha, -, -, -⟩ := h
      subst ha
      exact ⟨fun hc => by simp at hc, fun hc => by simp at hc⟩
    · obtain ⟨ha, -, -, -⟩ := h
      subst ha
      exact ⟨fun hc => by simp at hc, fun hc => by simp at hc⟩
  | MoveBack =>
    simp only [BfArray.perform_operation, BfArray.move_pointer] at h
    cases hcs : checked_sub st.pointer <;> rw [hcs] at h <;> simp at h
    · obtain ⟨ha, -, -, -⟩ := h
      subst ha
      exact ⟨fun hc => by simp at hc, fun hc => by simp at hc⟩
    · obtain ⟨ha, -, -, -⟩ := h
      subst ha
      exact ⟨fun hc => by simp at hc, fun hc => by simp at hc⟩
  | JmpStart =>
    simp only [BfArray.perform_operation, BfArray.jump_from] at h
    simp at h
    obtain ⟨v, hv, ha, -, -, -⟩ := h
    cases hnz : (v != 0) <;> rw [hnz] at ha <;> simp at ha <;> subst ha
    · exact ⟨fun _ => rfl, fun hc => by simp at hc⟩
    · exact ⟨fun _ => rfl, fun hc => by simp at hc⟩
  | JmpEnd =>
    simp only [BfArray.perform_operation, BfArray.jump_from] at h
    simp at h
    obtain ⟨v, hv, ha, -, -, -⟩ := h
    cases hnz : (v != 0) <;> rw [hnz] at ha <;> simp at ha <;> subst ha
    · exact ⟨fun hc => by simp at hc, fun _ => rfl⟩
    · exact ⟨fun hc => by simp at hc, fun _ => rfl⟩

/-! ### The jump-stack invariant -/

theorem open_stack_zero (ops : List OpCode) : open_stack ops 0 = [] := rfl

/-- Weakening of the slack bound. -/
theorem PrefixSlack.mono (k k' : Nat) (l : List OpCode) (hk : k ≤ k')
    (h : PrefixSlack k l) : PrefixSlack k' l := by
  intro n
  have := h n
  omega

/-- `PrefixSlack k` extends across a snoc given the full-list count
condition. -/
theorem prefixSlack_snoc (k : Nat) (seg : List OpCode) (x : OpCode)
    (h : PrefixSlack k seg)
    (hfull : closes (seg ++ [x]) ≤ opens (seg ++ [x]) + k) :
    PrefixSlack k (seg ++ [x]) := by
  intro n
  rcases le_or_lt n seg.length with hn | hn
  · rw [List.take_append_eq_append_take]
    have h0 : n - seg.length = 0 := Nat.sub_eq_zero_of_le hn
    rw [h0]
    simpa using h n
  · have : (seg ++ [x]).take n = seg ++ [x] := by
      apply List.take_of_length_le
      simp
      omega
    rw [this]
    exact hfull

theorem open_stack_succ (ops : List OpCode) (p : Nat) (op : OpCode)
    (hop : ops.get? p = some op) :
    open_stack ops (p + 1) = stack_step p op (open_stack ops p) := by
  obtain ⟨hlt, -⟩ := List.get?_eq_some.mp hop
  have hge : ops[p]? = some op := by rw [← List.get?_eq_getElem?]; exact hop
  have htake : ops.take (p + 1) = ops.take p ++ [op] := by
    rw [List.take_succ, hge]
    rfl
  unfold open_stack
  rw [htake, stack_run_append]
  have hlen : (ops.take p).length = p := by
    rw [List.length_take]
    omega
  rw [hlen]
  simp [stack_run]

theorem open_stack_skip (ops : List OpCode) (p m : Nat)
    (hop : ops.get? p = some OpCode.JmpStart)
    (hgo : jmp_forward_go ops p 0 = some m) :
    open_stack ops (m + 1) = open_stack ops p := by
  obtain ⟨h1, h2, h3, h4, h5⟩ :=
    jmp_forward_go_spec ops.length ops p 0 m (by omega) hgo
  have hm : ops[m]? = some OpCode.JmpEnd := by
    rw [← List.get?_eq_getElem?]
    exact h3
  have e1 : ops.take (m + 1) = ops.take m ++ [OpCode.JmpEnd] := by
    rw [List.take_succ, hm]
    rfl
  have e2 : (ops.take m).drop p =
      OpCode.JmpStart :: (ops.take m).drop (p + 1) :=
    take_drop_cons ops _ p m h1 (le_of_lt h2) hop
  have e4 : (ops.take m).take p = ops.take p := by
    rw [List.take_take]
    congr 1
    omega
  have e3 : ops.take (m + 1) =
      ops.take p ++
        (OpCode.JmpStart :: ((ops.take m).drop (p + 1) ++ [OpCode.JmpEnd])) := by
    rw [e1]
    conv_lhs => rw [← List.take_append_drop p (ops.take m)]
    rw [e4, e2, List.append_assoc]
    rfl
  have hwm : WellMatched
      (OpCode.JmpStart :: ((ops.take m).drop (p + 1) ++ [OpCode.JmpEnd])) := by
    constructor
    · apply PrefixSlack.cons_jmpStart
      apply prefixSlack_snoc
      · exact PrefixSlack.mono 0 1 _ (by omega) h4
      · rw [closes_append, opens_append]
        simp
        omega
    · rw [opens_cons, closes_cons, opens_append, closes_append]
      simp
      omega
  unfold open_stack
  rw [e3, stack_run_append, stack_run_wellMatched _ _ _ hwm]

theorem open_stack_top (ops : List OpCode) (p t : Nat) (rest : List Nat)
    (h : open_stack ops p = t :: rest) :
    open_stack ops t = open_stack ops p := by
  have hs : stack_run (ops.take p) 0 [] = t :: rest := h
  obtain ⟨ht, hsla, hcnt⟩ := stack_spec (ops.take p) 0 t (by rw [hs]; rfl)
  have hwm : WellMatched ((ops.take p).drop t) := ⟨hsla, by omega⟩
  have htp : t ≤ p := by
    have : (ops.take p).length ≤ p := by
      rw [List.length_take]
      omega
    omega
  have e4 : (ops.take p).take t = ops.take t := by
    rw [List.take_take]
    congr 1
    omega
  have e0 : open_stack ops p =
      stack_run ((ops.take p).take t ++ (ops.take p).drop t) 0 [] := by
    rw [List.take_append_drop]
    rfl
  rw [open_stack, e0, stack_run_append, stack_run_wellMatched _ _ _ hwm, e4]

/-- Inversion of a loop iteration that continues: how the jump stack and
the instruction pointer can change. -/
theorem exec_step_again_inv (st : Interpreter) (op : OpCode) (w s : List Nat)
    (st' : Interpreter) (w' s' : List Nat)
    (h : exec_step st op w s = IterOut.again st' w' s') :
    st'.ops = st.ops ∧
    ((st'.jump_stack = st.jump_stack ∧ st'.pointer = st.pointer + 1 ∧
        op ≠ OpCode.JmpStart ∧ op ≠ OpCode.JmpEnd) ∨
      (op = OpCode.JmpStart ∧
        st'.jump_stack = (st.pointer + 1) :: st.jump_stack ∧
        st'.pointer = st.pointer + 1) ∨
      (op = OpCode.JmpEnd ∧ ∃ x rest, st.jump_stack = x :: rest ∧
        st'.jump_stack = rest ∧ st'.pointer = st.pointer + 1) ∨
      (op = OpCode.JmpEnd ∧ ∃ t rest, st.jump_stack = t :: rest ∧
        st'.jump_stack = st.jump_stack ∧ st'.pointer = t) ∨
      (op = OpCode.JmpStart ∧ ∃ m, jmp_forward_go st.ops st.pointer 0 = some m ∧
        st'.jump_stack = st.jump_stack ∧ st'.pointer = m + 1)) := by
  cases hpo : st.inner.perform_operation op w s with
  | none =>
    simp only [exec_step] at h
    rw [hpo] at h
    simp at h
  | some r =>
    obtain ⟨a, inner', w2, s2⟩ := r
    have hact := perform_operation_action st.inner op w s a inner' w2 s2 hpo
    simp only [exec_step] at h
    rw [hpo] at h
    cases a with
    | exit msg => simp at h
    | jumpForward =>
      have hop : op = OpCode.JmpStart := hact.1 rfl
      simp only [Interpreter.jmp_forward] at h
      cases hgo : jmp_forward_go st.ops st.pointer 0 with
      | none => rw [hgo] at h; simp at h
      | some m =>
        rw [hgo] at h
        simp only [Option.some_bind] at h
        cases hca : checked_add m with
        | none => rw [hca] at h; simp at h
        | some mm =>
          rw [hca] at h
          simp at h
          obtain ⟨hst, -, -⟩ := h
          subst hst
          obtain ⟨hmm, -⟩ := checked_add_some m mm hca
          subst hmm
          exact ⟨rfl, Or.inr (Or.inr (Or.inr (Or.inr ⟨hop, m, rfl, rfl, rfl⟩)))⟩
    | jumpBack =>
      have hop : op = OpCode.JmpEnd := hact.2 rfl
      cases hjs : st.jump_stack with
      | nil => rw [hjs] at h; simp at h
      | cons t tail =>
        rw [hjs] at h
        simp at h
        obtain ⟨hst, -, -⟩ := h
        subst hst
        exact ⟨rfl, Or.inr (Or.inr (Or.inr (Or.inl ⟨hop, t, tail, rfl, rfl, rfl⟩)))⟩
    | none =>
      cases op with
      | JmpStart =>
        simp [Interpreter.increment_pointer] at h
        cases hca : checked_add st.pointer with
        | none => rw [hca] at h; simp at h
        | some pp =>
          rw [hca] at h
          simp at h
          obtain ⟨hst, -, -⟩ := h
          subst hst
          obtain ⟨hpp, -⟩ := checked_add_some st.pointer pp hca
          subst hpp
          exact ⟨rfl, Or.inr (Or.inl ⟨rfl, rfl, rfl⟩)⟩
      | JmpEnd =>
        cases hjs : st.jump_stack with
        | nil => rw [hjs] at h; simp at h
        | cons x rest =>
          rw [hjs] at h
          simp [Interpreter.increment_pointer] at h
          cases hca : checked_add st.pointer with
          | none => rw [hca] at h; simp at h
          | some pp =>
            rw [hca] at h
            simp at h
            obtain ⟨hst, -, -⟩ := h
            subst hst
            obtain ⟨hpp, -⟩ := checked_add_some st.pointer pp hca
            subst hpp
            exact ⟨rfl, Or.inr (Or.inr (Or.inl ⟨rfl, x, rest, rfl, rfl, rfl⟩))⟩
      | MoveForward =>
        simp [Interpreter.increment_pointer] at h
        cases hca : checked_add st.pointer with
        | none => rw [hca] at h; simp at h
        | some pp =>
          rw [hca] at h
          simp at h
          obtain ⟨hst, -, -⟩ := h
          subst hst
          obtain ⟨hpp, -⟩ := checked_add_some st.pointer pp hca
          subst hpp
          exact ⟨rfl, Or.inl ⟨rfl, rfl, by decide, by decide⟩⟩
      | MoveBack =>
        simp [Interpreter.increment_pointer] at h
        cases hca : checked_add st.pointer with
        | none => rw [hca] at h; simp at h
        | some pp =>
          rw [hca] at h
          simp at h
          obtain ⟨hst, -, -⟩ := h
          subst hst
          obtain ⟨hpp, -⟩ := checked_add_some st.pointer pp hca
          subst hpp
          exact ⟨rfl, Or.inl ⟨rfl, rfl, by decide, by decide⟩⟩
      | Increment =>
        simp [Interpreter.increment_pointer] at h
        cases hca : checked_add st.pointer with
        | none => rw [hca] at h; simp at h
        | some pp =>
          rw [hca] at h
          simp at h
          obtain ⟨hst, -, -⟩ := h
          subst hst
          obtain ⟨hpp, -⟩ := checked_add_some st.pointer pp hca
          subst hpp
          exact ⟨rfl, Or.inl ⟨rfl, rfl, by decide, by decide⟩⟩
      | Decrement =>
        simp [Interpreter.increment_pointer] at h
        cases hca : checked_add st.pointer with
        | none => rw [hca] at h; simp at h
        | some pp =>
          rw [hca] at h
          simp at h
          obtain ⟨hst, -, -⟩ := h
          subst hst
          obtain ⟨hpp, -⟩ := checked_add_some st.pointer pp hca
          subst hpp
          exact ⟨rfl, Or.inl ⟨rfl, rfl, by decide, by decide⟩⟩
      | Output =>
        simp [Interpreter.increment_pointer] at h
        cases hca : checked_add st.pointer with
        | none => rw [hca] at h; simp at h
        | some pp =>
          rw [hca] at h
          simp at h
          obtain ⟨hst, -, -⟩ := h
          subst hst
          obtain ⟨hpp, -⟩ := checked_add_some st.pointer pp hca
          subst hpp
          exact ⟨rfl, Or.inl ⟨rfl, rfl, by decide, by decide⟩⟩
      | Input =>
        simp [Interpreter.increment_pointer] at h
        cases hca : checked_add st.pointer with
        | none => rw [hca] at h; simp at h
        | some pp =>
          rw [hca] at h
          simp at h
          obtain ⟨hst, -, -⟩ := h
          subst hst
          obtain ⟨hpp, -⟩ := checked_add_some st.pointer pp hca
          subst hpp
          exact ⟨rfl, Or.inl ⟨rfl, rfl, by decide, by decide⟩⟩

/-- A continuing iteration preserves the jump-stack invariant. -/
theorem exec_step_preserves_inv (st : Interpreter) (op : OpCode) (w s : List Nat)
    (st' : Interpreter) (w' s' : List Nat)
    (hop : st.ops.get? st.pointer = some op)
    (h : exec_step st op w s = IterOut.again st' w' s')
    (hinv : st.jump_stack = open_stack st.ops st.pointer) :
    st'.ops = st.ops ∧ st'.jump_stack = open_stack st'.ops st'.pointer := by
  obtain ⟨hops, hcases⟩ := exec_step_again_inv st op w s st' w' s' h
  refine ⟨hops, ?_⟩
  rw [hops]
  rcases hcases with ⟨hjs, hp, hns, hne⟩ | ⟨hopS, hjs, hp⟩ |
    ⟨hopE, x, rest, hst, hjs, hp⟩ | ⟨hopE, t, rest, hst, hjs, hp⟩ |
    ⟨hopS, m, hgo, hjs, hp⟩
  · rw [hp, open_stack_succ st.ops st.pointer op hop, hjs, hinv]
    cases op with
    | JmpStart => exact absurd rfl hns
    | JmpEnd => exact absurd rfl hne
    | MoveForward => rfl
    | MoveBack => rfl
    | Increment => rfl
    | Decrement => rfl
    | Output => rfl
    | Input => rfl
  · subst hopS
    rw [hp, open_stack_succ st.ops st.pointer _ hop, hjs, hinv]
    rfl
  · subst hopE
    rw [hp, open_stack_succ st.ops st.pointer _ hop, hjs]
    have : stack_step st.pointer OpCode.JmpEnd (open_stack st.ops st.pointer) =
        (open_stack st.ops st.pointer).tail := rfl
    rw [this, ← hinv, hst]
    rfl
  · rw [hjs, hinv, hp]
    exact (open_stack_top st.ops st.pointer t rest (by rw [← hinv]; exact hst)).symm
  · subst hopS
    rw [hp, hjs, hinv]
    exact (open_stack_skip st.ops st.pointer m hop hgo).symm

/-- A run that ends normally preserves the invariant and exhausts the
program. -/
theorem run_loop_done_inv :
    ∀ (fuel : Nat) (st : Interpreter) (w s : List Nat)
      (st' : Interpreter) (w' s' : List Nat),
      run_loop fuel st w s = RunResult.done st' w' s' →
      st.jump_stack = open_stack st.ops st.pointer →
      st'.ops = st.ops ∧ st'.jump_stack = open_stack st'.ops st'.pointer ∧
      st'.ops.get? st'.pointer = Option.none := by
  intro fuel
  induction fuel with
  | zero =>
    intro st w s st' w' s' h hinv
    simp [run_loop] at h
  | succ fuel ih =>
    intro st w s st' w' s' h hinv
    simp only [run_loop] at h
    cases hget : st.ops.get? st.pointer with
    | none =>
      rw [hget] at h
      simp at h
      obtain ⟨h1, -, -⟩ := h
      subst h1
      exact ⟨rfl, hinv, hget⟩
    | some op =>
      rw [hget] at h
      have h2 : (match exec_step st op w s with
          | IterOut.again st1 w1 s1 => run_loop fuel st1 w1 s1
          | IterOut.stopped msg st1 w1 s1 => RunResult.fatal msg st1 w1 s1
          | IterOut.crashed => RunResult.crashed) = RunResult.done st' w' s' := h
      clear h
      cases hstep : exec_step st op w s with
      | again st2 w2 s2 =>
        rw [hstep] at h2
        have h' : run_loop fuel st2 w2 s2 = RunResult.done st' w' s' := h2
        obtain ⟨hops2, hinv2⟩ :=
          exec_step_preserves_inv st op w s st2 w2 s2 hget hstep hinv
        obtain ⟨ho, hi, hg⟩ := ih st2 w2 s2 st' w' s' h' hinv2
        exact ⟨by rw [ho, hops2], hi, hg⟩
      | stopped msg st2 w2 s2 => rw [hstep] at h2; simp at h2
      | crashed => rw [hstep] at h2; simp at h2

/-- A normally terminating run of a balanced program leaves the jump stack
empty. -/
theorem execute_all_done_stack_empty (fuel : Nat) (ops : List OpCode)
    (w s : List Nat) (st' : Interpreter) (w' s' : List Nat)
    (hbal : Balanced ops)
    (h : execute_all fuel (Interpreter.new ops) w s = RunResult.done st' w' s') :
    st'.jump_stack = [] := by
  unfold execute_all at h
  obtain ⟨ho, hi, hg⟩ := run_loop_done_inv fuel _ w s st' w' s' h rfl
  have hlen : st'.ops.length ≤ st'.pointer := by
    by_contra hcon
    rw [List.get?_eq_get (by omega)] at hg
    simp at hg
  have hops : st'.ops = ops := ho
  have htk : st'.ops.take st'.pointer = st'.ops := List.take_of_length_le hlen
  rw [hi, open_stack, htk, hops]
  have hsl : PrefixSlack ([] : List Nat).length ops := by
    intro n
    have := hbal.1 n
    simp
    omega
  have hrl := stack_run_length ops 0 [] hsl
  have hbal2 := hbal.2
  have hlen0 : (stack_run ops 0 []).length = 0 := by
    simp at hrl
    omega
  exact List.length_eq_zero.mp hlen0

/-! ### Parse-error classification -/

/-- Number of `[` bytes (91) in a byte list. -/
def bopens (p : List Nat) : Nat := p.count 91

/-- Number of `]` bytes (93) in a byte list. -/
def bcloses (p : List Nat) : Nat := p.count 93

@[simp] theorem bopens_nil : bopens [] = 0 := rfl

@[simp] theorem bcloses_nil : bcloses [] = 0 := rfl

theorem bopens_cons (b : Nat) (l : List Nat) :
    bopens (b :: l) = (if b = 91 then 1 else 0) + bopens l := by
  simp [bopens, List.count_cons]
  split_ifs with h <;> omega

theorem bcloses_cons (b : Nat) (l : List Nat) :
    bcloses (b :: l) = (if b = 93 then 1 else 0) + bcloses l := by
  simp [bcloses, List.count_cons]
  split_ifs with h <;> omega

/-- Every `]` in `bs` is matched by earlier surplus opens, given `opn`
already-open brackets. -/
def GoodRel (opn : Nat) (bs : List Nat) : Prop :=
  ∀ j, bs.get? j = some 93 → bcloses (bs.take j) < bopens (bs.take j) + opn

theorem GoodRel.tail_open (opn : Nat) (rest : List Nat)
    (h : GoodRel opn (91 :: rest)) : GoodRel (opn + 1) rest := by
  intro j hj
  have := h (j + 1) (by simpa using hj)
  rw [List.take_succ_cons, bcloses_cons, bopens_cons] at this
  simp at this
  omega

theorem GoodRel.head_pos (opn : Nat) (rest : List Nat)
    (h : GoodRel opn (93 :: rest)) : 0 < opn := by
  have := h 0 rfl
  simpa using this

theorem GoodRel.tail_close (opn : Nat) (rest : List Nat)
    (h : GoodRel opn (93 :: rest)) : GoodRel (opn - 1) rest := by
  have hpos := h.head_pos
  intro j hj
  have := h (j + 1) (by simpa using hj)
  rw [List.take_succ_cons, bcloses_cons, bopens_cons] at this
  simp at this
  omega

theorem GoodRel.tail_skip (opn : Nat) (b : Nat) (rest : List Nat)
    (hb1 : b ≠ 91) (hb2 : b ≠ 93)
    (h : GoodRel opn (b :: rest)) : GoodRel opn rest := by
  intro j hj
  have := h (j + 1) (by simpa using hj)
  rw [List.take_succ_cons, bcloses_cons, bopens_cons, if_neg hb2, if_neg hb1] at this
  omega

theorem GoodRel.cons_open (opn : Nat) (rest : List Nat)
    (h : GoodRel (opn + 1) rest) : GoodRel opn (91 :: rest) := by
  intro j hj
  cases j with
  | zero => simp at hj
  | succ j =>
    have := h j (by simpa using hj)
    rw [List.take_succ_cons, bcloses_cons, bopens_cons]
    simp
    omega

theorem GoodRel.cons_close (opn : Nat) (rest : List Nat)
    (hpos : 0 < opn) (h : GoodRel (opn - 1) rest) : GoodRel opn (93 :: rest) := by
  intro j hj
  cases j with
  | zero => simpa using hpos
  | succ j =>
    have := h j (by simpa using hj)
    rw [List.take_succ_cons, bcloses_cons, bopens_cons]
    simp
    omega

theorem GoodRel.cons_skip (opn : Nat) (b : Nat) (rest : List Nat)
    (hb1 : b ≠ 91) (hb2 : b ≠ 93)
    (h : GoodRel opn rest) : GoodRel opn (b :: rest) := by
  intro j hj
  cases j with
  | zero => simp at hj; omega
  | succ j =>
    have := h j (by simpa using hj)
    rw [List.take_succ_cons, bcloses_cons, bopens_cons, if_neg hb2, if_neg hb1]
    omega

/-- When every `]` is covered, the parse result is decided by the final
counter: zero gives success, nonzero gives `Unmatched '['`. -/
theorem parse_go_classify :
    ∀ (rest : List Nat) (opn : Nat) (acc : List OpCode),
      GoodRel opn rest →
      (opn + bopens rest = bcloses rest →
        ∃ ops', parse_go rest acc opn = Except.ok ops') ∧
      (opn + bopens rest ≠ bcloses rest →
        parse_go rest acc opn = Except.error "Unmatched '['") := by
  intro rest
  induction rest with
  | nil =>
    intro opn acc _
    constructor
    · intro hz
      simp at hz
      subst hz
      exact ⟨acc, by simp [parse_go]⟩
    · intro hnz
      simp at hnz
      simp [parse_go, hnz]
  | cons b rest ih =>
    intro opn acc hg
    have hcnt : ∀ x y : Nat, True := fun _ _ => trivial
    by_cases h62 : b = 62
    · subst h62
      have hg' : GoodRel opn rest := hg.tail_skip opn 62 rest (by omega) (by omega)
      have := ih opn (acc ++ [OpCode.MoveForward]) hg'
      constructor
      · intro hz
        rw [bopens_cons, bcloses_cons] at hz
        simp at hz
        obtain ⟨ops', hok⟩ := this.1 (by omega)
        exact ⟨ops', by simpa [parse_go] using hok⟩
      · intro hnz
        rw [bopens_cons, bcloses_cons] at hnz
        simp at hnz
        have := this.2 (by omega)
        simpa [parse_go] using this
    · by_cases h60 : b = 60
      · subst h60
        have hg' : GoodRel opn rest := hg.tail_skip opn 60 rest (by omega) (by omega)
        have := ih opn (acc ++ [OpCode.MoveBack]) hg'
        constructor
        · intro hz
          rw [bopens_cons, bcloses_cons] at hz
          simp at hz
          obtain ⟨ops', hok⟩ := this.1 (by omega)
          exact ⟨ops', by simpa [parse_go] using hok⟩
        · intro hnz
          rw [bopens_cons, bcloses_cons] at hnz
          simp at hnz
          have := this.2 (by omega)
          simpa [parse_go] using this
      · by_cases h46 : b = 46
        · subst h46
          have hg' : GoodRel opn rest := hg.tail_skip opn 46 rest (by omega) (by omega)
          have := ih opn (acc ++ [OpCode.Output]) hg'
          constructor
          · intro hz
            rw [bopens_cons, bcloses_cons] at hz
            simp at hz
            obtain ⟨ops', hok⟩ := this.1 (by omega)
            exact ⟨ops', by simpa [parse_go] using hok⟩
          · intro hnz
            rw [bopens_cons, bcloses_cons] at hnz
            simp at hnz
            have := this.2 (by omega)
            simpa [parse_go] using this
        · by_cases h44 : b = 44
          · subst h44
            have hg' : GoodRel opn rest := hg.tail_skip opn 44 rest (by omega) (by omega)
            have := ih opn (acc ++ [OpCode.Input]) hg'
            constructor
            · intro hz
              rw [bopens_cons, bcloses_cons] at hz
              simp at hz
              obtain ⟨ops', hok⟩ := this.1 (by omega)
              exact ⟨ops', by simpa [parse_go] using hok⟩
            · intro hnz
              rw [bopens_cons, bcloses_cons] at hnz
              simp at hnz
              have := this.2 (by omega)
              simpa [parse_go] using this
          · by_cases h43 : b = 43
            · subst h43
              have hg' : GoodRel opn rest := hg.tail_skip opn 43 rest (by omega) (by omega)
              have := ih opn (acc ++ [OpCode.Increment]) hg'
              constructor
              · intro hz
                rw [bopens_cons, bcloses_cons] at hz
                simp at hz
                obtain ⟨ops', hok⟩ := this.1 (by omega)
                exact ⟨ops', by simpa [parse_go] using hok⟩
              · intro hnz
                rw [bopens_cons, bcloses_cons] at hnz
                simp at hnz
                have := this.2 (by omega)
                simpa [parse_go] using this
            · by_cases h45 : b = 45
              · subst h45
                have hg' : GoodRel opn rest := hg.tail_skip opn 45 rest (by omega) (by omega)
                have := ih opn (acc ++ [OpCode.Decrement]) hg'
                constructor
                · intro hz
                  rw [bopens_cons, bcloses_cons] at hz
                  simp at hz
                  obtain ⟨ops', hok⟩ := this.1 (by omega)
                  exact ⟨ops', by simpa [parse_go] using hok⟩
                · intro hnz
                  rw [bopens_cons, bcloses_cons] at hnz
                  simp at hnz
                  have := this.2 (by omega)
                  simpa [parse_go] using this
              · by_cases h91 : b = 91
                · subst h91
                  have hg' : GoodRel (opn + 1) rest := hg.tail_open opn rest
                  have := ih (opn + 1) (acc ++ [OpCode.JmpStart]) hg'
                  constructor
                  · intro hz
                    rw [bopens_cons, bcloses_cons] at hz
                    simp at hz
                    obtain ⟨ops', hok⟩ := this.1 (by omega)
                    exact ⟨ops', by simpa [parse_go] using hok⟩
                  · intro hnz
                    rw [bopens_cons, bcloses_cons] at hnz
                    simp at hnz
                    have := this.2 (by omega)
                    simpa [parse_go] using this
                · by_cases h93 : b = 93
                  · subst h93
                    have hpos : 0 < opn := hg.head_pos
                    have hg' : GoodRel (opn - 1) rest := hg.tail_close
                    have := ih (opn - 1) (acc ++ [OpCode.JmpEnd]) hg'
                    constructor
                    · intro hz
                      rw [bopens_cons, bcloses_cons] at hz
                      simp at hz
                      obtain ⟨ops', hok⟩ := this.1 (by omega)
                      refine ⟨ops', ?_⟩
                      simp [parse_go, Nat.pos_iff_ne_zero.mp hpos]
                      exact hok
                    · intro hnz
                      rw [bopens_cons, bcloses_cons] at hnz
                      simp at hnz
                      have herr := this.2 (by omega)
                      simp [parse_go, Nat.pos_iff_ne_zero.mp hpos]
                      exact herr
                  · have hg' : GoodRel opn rest := hg.tail_skip opn b rest h91 h93
                    have := ih opn acc hg'
                    constructor
                    · intro hz
                      rw [bopens_cons, bcloses_cons, if_neg h91, if_neg h93] at hz
                      simp at hz
                      obtain ⟨ops', hok⟩ := this.1 (by omega)
                      refine ⟨ops', ?_⟩
                      simpa [parse_go, h62, h60, h46, h44, h43, h45, h91, h93] using hok
                    · intro hnz
                      rw [bopens_cons, bcloses_cons, if_neg h91, if_neg h93] at hnz
                      have herr := this.2 (by omega)
                      simpa [parse_go, h62, h60, h46, h44, h43, h45, h91, h93] using herr

/-- When some `]` is uncovered, the parse fails with the close-bracket
error. -/
theorem parse_go_close_error :
    ∀ (rest : List Nat) (opn : Nat) (acc : List OpCode),
      ¬ GoodRel opn rest →
      parse_go rest acc opn = Except.error "Unmatched ']'" := by
  intro rest
  induction rest with
  | nil =>
    intro opn acc hbad
    exact absurd (fun j hj => by simp at hj) hbad
  | cons b rest ih =>
    intro opn acc hbad
    by_cases h62 : b = 62
    · subst h62
      have : ¬ GoodRel opn rest := fun hg =>
        hbad (hg.cons_skip opn 62 rest (by omega) (by omega))
      simpa [parse_go] using ih opn (acc ++ [OpCode.MoveForward]) this
    · by_cases h60 : b = 60
      · subst h60
        have : ¬ GoodRel opn rest := fun hg =>
          hbad (hg.cons_skip opn 60 rest (by omega) (by omega))
        simpa [parse_go] using ih opn (acc ++ [OpCode.MoveBack]) this
      · by_cases h46 : b = 46
        · subst h46
          have : ¬ GoodRel opn rest := fun hg =>
            hbad (hg.cons_skip opn 46 rest (by omega) (by omega))
          simpa [parse_go] using ih opn (acc ++ [OpCode.Output]) this
        · by_cases h44 : b = 44
          · subst h44
            have : ¬ GoodRel opn rest := fun hg =>
              hbad (hg.cons_skip opn 44 rest (by omega) (by omega))
            simpa [parse_go] using ih opn (acc ++ [OpCode.Input]) this
          · by_cases h43 : b = 43
            · subst h43
              have : ¬ GoodRel opn rest := fun hg =>
                hbad (hg.cons_skip opn 43 rest (by omega) (by omega))
              simpa [parse_go] using ih opn (acc ++ [OpCode.Increment]) this
            · by_cases h45 : b = 45
              · subst h45
                have : ¬ GoodRel opn rest := fun hg =>
                  hbad (hg.cons_skip opn 45 rest (by omega) (by omega))
                simpa [parse_go] using ih opn (acc ++ [OpCode.Decrement]) this
              · by_cases h91 : b = 91
                · subst h91
                  have : ¬ GoodRel (opn + 1) rest := fun hg =>
                    hbad (hg.cons_open opn rest)
                  simpa [parse_go] using ih (opn + 1) (acc ++ [OpCode.JmpStart]) this
                · by_cases h93 : b = 93
                  · subst h93
                    by_cases hz : opn = 0
                    · subst hz
                      simp [parse_go]
                    · have hpos : 0 < opn := Nat.pos_of_ne_zero hz
                      have : ¬ GoodRel (opn - 1) rest := fun hg =>
                        hbad (GoodRel.cons_close opn rest hpos hg)
                      have herr := ih (opn - 1) (acc ++ [OpCode.JmpEnd]) this
                      simp [parse_go, hz]
                      exact herr
                  · have : ¬ GoodRel opn rest := fun hg =>
                      hbad (hg.cons_skip opn b rest h91 h93)
                    simpa [parse_go, h62, h60, h46, h44, h43, h45, h91, h93] using
                      ih opn acc this

/-! ### Comment skipping -/

/-- The eight command bytes of the language. -/
def is_command (b : Nat) : Bool :=
  b == 62 || b == 60 || b == 46 || b == 44 || b == 43 || b == 45 || b == 91 || b == 93

/-- Non-command bytes are transparent to the parse loop. -/
theorem parse_go_filter :
    ∀ (bs : List Nat) (acc : List OpCode) (opn : Nat),
      parse_go bs acc opn = parse_go (bs.filter is_command) acc opn := by
  intro bs
  induction bs with
  | nil => intro acc opn; rfl
  | cons b rest ih =>
    intro acc opn
    by_cases h62 : b = 62
    case pos =>
      subst h62
      have hf : (62 :: rest).filter is_command = 62 :: rest.filter is_command := by
        simp [List.filter_cons, is_command]
      rw [hf]
      simp only [parse_go]
      norm_num
      exact ih (acc ++ [OpCode.MoveForward]) opn
    case neg =>
      by_cases h60 : b = 60
      case pos =>
        subst h60
        have hf : (60 :: rest).filter is_command = 60 :: rest.filter is_command := by
          simp [List.filter_cons, is_command]
        rw [hf]
        simp only [parse_go]
        norm_num
        exact ih (acc ++ [OpCode.MoveBack]) opn
      case neg =>
        by_cases h46 : b = 46
        case pos =>
          subst h46
          have hf : (46 :: rest).filter is_command = 46 :: rest.filter is_command := by
            simp [List.filter_cons, is_command]
          rw [hf]
          simp only [parse_go]
          norm_num
          exact ih (acc ++ [OpCode.Output]) opn
        case neg =>
          by_cases h44 : b = 44
          case pos =>
            subst h44
            have hf : (44 :: rest).filter is_command = 44 :: rest.filter is_command := by
              simp [List.filter_cons, is_command]
            rw [hf]
            simp only [parse_go]
            norm_num
            exact ih (acc ++ [OpCode.Input]) opn
          case neg =>
            by_cases h43 : b = 43
            case pos =>
              subst h43
              have hf : (43 :: rest).filter is_command = 43 :: rest.filter is_command := by
                simp [List.filter_cons, is_command]
              rw [hf]
              simp only [parse_go]
              norm_num
              exact ih (acc ++ [OpCode.Increment]) opn
            case neg =>
              by_cases h45 : b = 45
              case pos =>
                subst h45
                have hf : (45 :: rest).filter is_command = 45 :: rest.filter is_command := by
                  simp [List.filter_cons, is_command]
                rw [hf]
                simp only [parse_go]
                norm_num
                exact ih (acc ++ [OpCode.Decrement]) opn
              case neg =>
                by_cases h91 : b = 91
                case pos =>
                  subst h91
                  have hf : (91 :: rest).filter is_command = 91 :: rest.filter is_command := by
                    simp [List.filter_cons, is_command]
                  rw [hf]
                  simp only [parse_go]
                  norm_num
                  exact ih (acc ++ [OpCode.JmpStart]) (opn + 1)
                case neg =>
                  by_cases h93 : b = 93
                  case pos =>
                    subst h93
                    have hf : (93 :: rest).filter is_command = 93 :: rest.filter is_command := by
                      simp [List.filter_cons, is_command]
                    rw [hf]
                    simp only [parse_go]
                    norm_num
                    by_cases hz : opn = 0
                    . rw [if_pos hz, if_pos hz]
                    . rw [if_neg hz, if_neg hz]
                      exact ih (acc ++ [OpCode.JmpEnd]) (opn - 1)
                  case neg =>
                    have hf : (b :: rest).filter is_command = rest.filter is_command := by
                      simp [List.filter_cons, is_command]
                      omega
                    rw [hf]
                    simp only [parse_go]
                    rw [if_neg h62, if_neg h60, if_neg h46, if_neg h44, if_neg h43, if_neg h45, if_neg h91, if_neg h93]
                    exact ih acc opn

/-- A bracket-free byte stream parses successfully and contributes no jump
instructions. -/
theorem parse_go_no_brackets :
    ∀ (bs : List Nat) (acc : List OpCode),
      (∀ b ∈ bs, b ≠ 91 ∧ b ≠ 93) →
      ∃ tl, parse_go bs acc 0 = Except.ok (acc ++ tl) ∧
        ∀ op ∈ tl, op ≠ OpCode.JmpStart ∧ op ≠ OpCode.JmpEnd := by
  intro bs
  induction bs with
  | nil => intro acc _; exact ⟨[], by simp [parse_go], by simp⟩
  | cons b rest ih =>
    intro acc hbs
    by_cases h62 : b = 62
    case pos =>
      subst h62
      obtain ⟨tl, hok, hnj⟩ := ih (acc ++ [OpCode.MoveForward]) (fun x hx => hbs x (by simp [hx]))
      refine ⟨OpCode.MoveForward :: tl, ?_, ?_⟩
      . simp only [parse_go]
        norm_num
        rw [hok, List.append_assoc]
        rfl
      . intro op hop
        rcases List.mem_cons.mp hop with hop | hop
        . subst hop
          exact ⟨by decide, by decide⟩
        . exact hnj op hop
    case neg =>
      by_cases h60 : b = 60
      case pos =>
        subst h60
        obtain ⟨tl, hok, hnj⟩ := ih (acc ++ [OpCode.MoveBack]) (fun x hx => hbs x (by simp [hx]))
        refine ⟨OpCode.MoveBack :: tl, ?_, ?_⟩
        . simp only [parse_go]
          norm_num
          rw [hok, List.append_assoc]
          rfl
        . intro op hop
          rcases List.mem_cons.mp hop with hop | hop
          . subst hop
            exact ⟨by decide, by decide⟩
          . exact hnj op hop
      case neg =>
        by_cases h46 : b = 46
        case pos =>
          subst h46
          obtain ⟨tl, hok, hnj⟩ := ih (acc ++ [OpCode.Output]) (fun x hx => hbs x (by simp [hx]))
          refine ⟨OpCode.Output :: tl, ?_, ?_⟩
          . simp only [parse_go]
            norm_num
            rw [hok, List.append_assoc]
            rfl
          . intro op hop
            rcases List.mem_cons.mp hop with hop | hop
            . subst hop
              exact ⟨by decide, by decide⟩
            . exact hnj op hop
        case neg =>
          by_cases h44 : b = 44
          case pos =>
            subst h44
            obtain ⟨tl, hok, hnj⟩ := ih (acc ++ [OpCode.Input]) (fun x hx => hbs x (by simp [hx]))
            refine ⟨OpCode.Input :: tl, ?_, ?_⟩
            . simp only [parse_go]
              norm_num
              rw [hok, List.append_assoc]
              rfl
            . intro op hop
              rcases List.mem_cons.mp hop with hop | hop
              . subst hop
                exact ⟨by decide, by decide⟩
              . exact hnj op hop
          case neg =>
            by_cases h43 : b = 43
            case pos =>
              subst h43
              obtain ⟨tl, hok, hnj⟩ := ih (acc ++ [OpCode.Increment]) (fun x hx => hbs x (by simp [hx]))
              refine ⟨OpCode.Increment :: tl, ?_, ?_⟩
              . simp only [parse_go]
                norm_num
                rw [hok, List.append_assoc]
                rfl
              . intro op hop
                rcases List.mem_cons.mp hop with hop | hop
                . subst hop
                  exact ⟨by decide, by decide⟩
                . exact hnj op hop
            case neg =>
              by_cases h45 : b = 45
              case pos =>
                subst h45
                obtain ⟨tl, hok, hnj⟩ := ih (acc ++ [OpCode.Decrement]) (fun x hx => hbs x (by simp [hx]))
                refine ⟨OpCode.Decrement :: tl, ?_, ?_⟩
                . simp only [parse_go]
                  norm_num
                  rw [hok, List.append_assoc]
                  rfl
                . intro op hop
                  rcases List.mem_cons.mp hop with hop | hop
                  . subst hop
                    exact ⟨by decide, by decide⟩
                  . exact hnj op hop
              case neg =>
                by_cases h91 : b = 91
                case pos =>
                  subst h91
                  exact absurd rfl (hbs 91 (by simp)).1
                case neg =>
                  by_cases h93 : b = 93
                  case pos =>
                    subst h93
                    exact absurd rfl (hbs 93 (by simp)).2
                  case neg =>
                    obtain ⟨tl, hok, hnj⟩ := ih acc (fun x hx => hbs x (by simp [hx]))
                    refine ⟨tl, ?_, hnj⟩
                    simp only [parse_go]
                    rw [if_neg h62, if_neg h60, if_neg h46, if_neg h44, if_neg h43, if_neg h45, if_neg h91, if_neg h93]
                    exact hok

/-! ### Forward computation of single loop iterations -/

theorem exec_step_jmpStart_push (st : Interpreter) (v : Nat) (w s : List Nat)
    (hv : st.inner.value = some (v + 1)) (hlt : st.pointer < USIZE_MAX) :
    exec_step st OpCode.JmpStart w s =
      IterOut.again
        { st with jump_stack := (st.pointer + 1) :: st.jump_stack,
                  pointer := st.pointer + 1 } w s := by
  simp [exec_step, perform_operation_jmpStart_nonzero st.inner v w s hv,
    Interpreter.increment_pointer, checked_add_of_lt st.pointer hlt]

theorem exec_step_jmpStart_skip (st : Interpreter) (m : Nat) (w s : List Nat)
    (hv : st.inner.value = some 0)
    (hgo : jmp_forward_go st.ops st.pointer 0 = some m) (hm : m < USIZE_MAX) :
    exec_step st OpCode.JmpStart w s =
      IterOut.again { st with pointer := m + 1 } w s := by
  simp [exec_step, perform_operation_jmpStart_zero st.inner w s hv,
    Interpreter.jmp_forward, hgo, checked_add_of_lt m hm]

theorem exec_step_jmpEnd_back (st : Interpreter) (v t : Nat) (rest : List Nat)
    (w s : List Nat)
    (hv : st.inner.value = some (v + 1)) (hjs : st.jump_stack = t :: rest) :
    exec_step st OpCode.JmpEnd w s =
      IterOut.again { st with pointer := t } w s := by
  simp [exec_step, perform_operation_jmpEnd_nonzero st.inner v w s hv, hjs]

theorem exec_step_jmpEnd_pop (st : Interpreter) (x : Nat) (rest : List Nat)
    (w s : List Nat)
    (hv : st.inner.value = some 0) (hjs : st.jump_stack = x :: rest)
    (hlt : st.pointer < USIZE_MAX) :
    exec_step st OpCode.JmpEnd w s =
      IterOut.again { st with jump_stack := rest, pointer := st.pointer + 1 } w s := by
  simp [exec_step, perform_operation_jmpEnd_zero st.inner w s hv, hjs,
    Interpreter.increment_pointer, checked_add_of_lt st.pointer hlt]

theorem exec_step_moveBack_zero (st : Interpreter) (w s : List Nat)
    (hz : st.inner.pointer = 0) :
    exec_step st OpCode.MoveBack w s =
      IterOut.stopped "Pointer access violation" st w s := by
  simp [exec_step, BfArray.perform_operation, BfArray.move_pointer, hz,
    checked_sub_of_zero]

theorem exec_step_moveForward (st : Interpreter) (w s : List Nat)
    (hc : st.inner.pointer < USIZE_MAX) (hp : st.pointer < USIZE_MAX) :
    exec_step st OpCode.MoveForward w s =
      IterOut.again
        { st with inner := { st.inner with pointer := st.inner.pointer + 1 },
                  pointer := st.pointer + 1 } w s := by
  simp [exec_step, BfArray.perform_operation, BfArray.move_pointer,
    checked_add_of_lt st.inner.pointer hc, Interpreter.increment_pointer,
    checked_add_of_lt st.pointer hp]


/-! ### A run consisting only of MoveForward instructions -/

theorem run_loop_step (fuel : Nat) (st : Interpreter) (op : OpCode)
    (w s : List Nat) (st2 : Interpreter) (w2 s2 : List Nat)
    (hget : st.ops.get? st.pointer = some op)
    (hstep : exec_step st op w s = IterOut.again st2 w2 s2) :
    run_loop (fuel + 1) st w s = run_loop fuel st2 w2 s2 := by
  simp only [run_loop]
  rw [hget]
  have hred : (match some op with
      | Option.none => RunResult.done st w s
      | some op => match exec_step st op w s with
        | IterOut.again st1 w1 s1 => run_loop fuel st1 w1 s1
        | IterOut.stopped msg st1 w1 s1 => RunResult.fatal msg st1 w1 s1
        | IterOut.crashed => RunResult.crashed) =
      (match exec_step st op w s with
        | IterOut.again st1 w1 s1 => run_loop fuel st1 w1 s1
        | IterOut.stopped msg st1 w1 s1 => RunResult.fatal msg st1 w1 s1
        | IterOut.crashed => RunResult.crashed) := rfl
  rw [hred, hstep]

theorem run_replicate_mf :
    ∀ (k : Nat) (raw : List Nat) (n j : Nat) (w s : List Nat),
      j + k = n → n < USIZE_MAX →
      run_loop (k + 1) ⟨⟨raw, j⟩, List.replicate n OpCode.MoveForward, [], j⟩ w s =
        RunResult.done ⟨⟨raw, n⟩, List.replicate n OpCode.MoveForward, [], n⟩ w s := by
  intro k
  induction k with
  | zero =>
    intro raw n j w s hj hn
    have hjn : j = n := by omega
    subst hjn
    simp [run_loop, List.getElem?_replicate]
  | succ k ih =>
    intro raw n j w s hj hn
    have hjn : j < n := by omega
    have hget : (List.replicate n OpCode.MoveForward).get? j = some OpCode.MoveForward := by
      rw [List.get?_eq_getElem?]
      simp [List.getElem?_replicate, hjn]
    have hstep :
        exec_step ⟨⟨raw, j⟩, List.replicate n OpCode.MoveForward, [], j⟩
            OpCode.MoveForward w s =
          IterOut.again ⟨⟨raw, j + 1⟩, List.replicate n OpCode.MoveForward, [], j + 1⟩ w s := by
      have := exec_step_moveForward
        ⟨⟨raw, j⟩, List.replicate n OpCode.MoveForward, [], j⟩ w s
        (by simp; omega) (by simp; omega)
      simpa using this
    rw [run_loop_step (k + 1) _ OpCode.MoveForward w s _ w s hget hstep]
    exact ih raw n (j + 1) w s (by omega) hn

/-! ### Observers for run results -/

/-- The jump stack at the end of a completed (normal or fatal) run. -/
def RunResult.final_stack : RunResult → Option (List Nat)
  | RunResult.done st _ _ => some st.jump_stack
  | RunResult.fatal _ st _ _ => some st.jump_stack
  | _ => Option.none

/-- Cell `i` of the tape at the end of a completed run. -/
def RunResult.final_cell (r : RunResult) (i : Nat) : Option Nat :=
  match r with
  | RunResult.done st _ _ => st.inner.raw.get? i
  | RunResult.fatal _ st _ _ => st.inner.raw.get? i
  | _ => Option.none

/-- The tape cursor at the end of a completed run. -/
def RunResult.final_cursor : RunResult → Option Nat
  | RunResult.done st _ _ => some st.inner.pointer
  | RunResult.fatal _ st _ _ => some st.inner.pointer
  | _ => Option.none

/-- The bytes written to the output sink, for a completed run. -/
def RunResult.final_output : RunResult → Option (List Nat)
  | RunResult.done _ w _ => some w
  | RunResult.fatal _ _ w _ => some w
  | _ => Option.none

/-- Did the run halt normally (instruction pointer past the program)? -/
def RunResult.is_done : RunResult → Bool
  | RunResult.done _ _ _ => true
  | _ => false

/-- The diagnostic message of a fatal halt. -/
def RunResult.fatal_message : RunResult → Option String
  | RunResult.fatal msg _ _ _ => some msg
  | _ => Option.none

theorem exec_step_increment (st : Interpreter) (v : Nat) (w s : List Nat)
    (hv : st.inner.value = some v) (hlt : st.inner.pointer < st.inner.raw.length)
    (hp : st.pointer < USIZE_MAX) :
    exec_step st OpCode.Increment w s =
      IterOut.again
        { st with
          inner := { st.inner with
            raw := st.inner.raw.set st.inner.pointer ((v + 1) % 256) },
          pointer := st.pointer + 1 } w s := by
  simp [exec_step, BfArray.perform_operation, BfArray.modify_value, hv,
    BfArray.set_value, hlt, Interpreter.increment_pointer,
    checked_add_of_lt st.pointer hp]

theorem exec_step_decrement (st : Interpreter) (v : Nat) (w s : List Nat)
    (hv : st.inner.value = some v) (hlt : st.inner.pointer < st.inner.raw.length)
    (hp : st.pointer < USIZE_MAX) :
    exec_step st OpCode.Decrement w s =
      IterOut.again
        { st with
          inner := { st.inner with
            raw := st.inner.raw.set st.inner.pointer ((v + 255) % 256) },
          pointer := st.pointer + 1 } w s := by
  simp [exec_step, BfArray.perform_operation, BfArray.modify_value, hv,
    BfArray.set_value, hlt, Interpreter.increment_pointer,
    checked_add_of_lt st.pointer hp]

theorem exec_step_output (st : Interpreter) (v : Nat) (w s : List Nat)
    (hv : st.inner.value = some v) (hp : st.pointer < USIZE_MAX) :
    exec_step st OpCode.Output w s =
      IterOut.again { st with pointer := st.pointer + 1 } (w ++ [v]) s := by
  simp [exec_step, BfArray.perform_operation, BfArray.output, hv,
    Interpreter.increment_pointer, checked_add_of_lt st.pointer hp]

theorem run_loop_done_of_none (fuel : Nat) (st : Interpreter) (w s : List Nat)
    (hget : st.ops.get? st.pointer = Option.none) :
    run_loop (fuel + 1) st w s = RunResult.done st w s := by
  simp only [run_loop]
  rw [hget]

theorem run_loop_fatal_step (fuel : Nat) (st : Interpreter) (op : OpCode)
    (w s : List Nat) (msg : String) (st2 : Interpreter) (w2 s2 : List Nat)
    (hget : st.ops.get? st.pointer = some op)
    (hstep : exec_step st op w s = IterOut.stopped msg st2 w2 s2) :
    run_loop (fuel + 1) st w s = RunResult.fatal msg st2 w2 s2 := by
  simp only [run_loop]
  rw [hget]
  have hred : (match some op with
      | Option.none => RunResult.done st w s
      | some op => match exec_step st op w s with
        | IterOut.again st1 w1 s1 => run_loop fuel st1 w1 s1
        | IterOut.stopped msg st1 w1 s1 => RunResult.fatal msg st1 w1 s1
        | IterOut.crashed => RunResult.crashed) =
      (match exec_step st op w s with
        | IterOut.again st1 w1 s1 => run_loop fuel st1 w1 s1
        | IterOut.stopped msg st1 w1 s1 => RunResult.fatal msg st1 w1 s1
        | IterOut.crashed => RunResult.crashed) := rfl
  rw [hred, hstep]


/-! ### Concrete runs, assembled step by step (the tape is 65535 cells, so
full kernel evaluation of the bounds checks is avoided). -/

theorem run_program_plus_loop_minus :
    execute_all 10 (Interpreter.new
        [OpCode.Increment, OpCode.JmpStart, OpCode.Decrement, OpCode.JmpEnd]) [] [] =
      RunResult.done
        ⟨⟨((List.replicate ARRAY_SIZE 0).set 0 1).set 0 0, 0⟩,
          [OpCode.Increment, OpCode.JmpStart, OpCode.Decrement, OpCode.JmpEnd], [], 4⟩
        [] [] := by
  show run_loop 10
      ⟨⟨List.replicate ARRAY_SIZE 0, 0⟩,
        [OpCode.Increment, OpCode.JmpStart, OpCode.Decrement, OpCode.JmpEnd], [], 0⟩ [] [] = _
  have h0 : exec_step
      ⟨⟨List.replicate ARRAY_SIZE 0, 0⟩,
        [OpCode.Increment, OpCode.JmpStart, OpCode.Decrement, OpCode.JmpEnd], [], 0⟩
      OpCode.Increment [] [] =
      IterOut.again
        ⟨⟨(List.replicate ARRAY_SIZE 0).set 0 1, 0⟩,
          [OpCode.Increment, OpCode.JmpStart, OpCode.Decrement, OpCode.JmpEnd], [], 1⟩ [] [] := by
    have := exec_step_increment
      ⟨⟨List.replicate ARRAY_SIZE 0, 0⟩,
        [OpCode.Increment, OpCode.JmpStart, OpCode.Decrement, OpCode.JmpEnd], [], 0⟩
      0 [] [] rfl
      (by show (0:Nat) < (List.replicate ARRAY_SIZE 0).length
          rw [List.length_replicate]
          decide)
      (by decide)
    exact this
  have h1 : exec_step
      ⟨⟨(List.replicate ARRAY_SIZE 0).set 0 1, 0⟩,
        [OpCode.Increment, OpCode.JmpStart, OpCode.Decrement, OpCode.JmpEnd], [], 1⟩
      OpCode.JmpStart [] [] =
      IterOut.again
        ⟨⟨(List.replicate ARRAY_SIZE 0).set 0 1, 0⟩,
          [OpCode.Increment, OpCode.JmpStart, OpCode.Decrement, OpCode.JmpEnd], [2], 2⟩ [] [] := by
    have := exec_step_jmpStart_push
      ⟨⟨(List.replicate ARRAY_SIZE 0).set 0 1, 0⟩,
        [OpCode.Increment, OpCode.JmpStart, OpCode.Decrement, OpCode.JmpEnd], [], 1⟩
      0 [] [] rfl (by decide)
    exact this
  have h2 : exec_step
      ⟨⟨(List.replicate ARRAY_SIZE 0).set 0 1, 0⟩,
        [OpCode.Increment, OpCode.JmpStart, OpCode.Decrement, OpCode.JmpEnd], [2], 2⟩
      OpCode.Decrement [] [] =
      IterOut.again
        ⟨⟨((List.replicate ARRAY_SIZE 0).set 0 1).set 0 0, 0⟩,
          [OpCode.Increment, OpCode.JmpStart, OpCode.Decrement, OpCode.JmpEnd], [2], 3⟩ [] [] := by
    have := exec_step_decrement
      ⟨⟨(List.replicate ARRAY_SIZE 0).set 0 1, 0⟩,
        [OpCode.Increment, OpCode.JmpStart, OpCode.Decrement, OpCode.JmpEnd], [2], 2⟩
      1 [] [] rfl
      (by show (0:Nat) < ((List.replicate ARRAY_SIZE 0).set 0 1).length
          rw [List.length_set, List.length_replicate]
          decide)
      (by decide)
    exact this
  have h3 : exec_step
      ⟨⟨((List.replicate ARRAY_SIZE 0).set 0 1).set 0 0, 0⟩,
        [OpCode.Increment, OpCode.JmpStart, OpCode.Decrement, OpCode.JmpEnd], [2], 3⟩
      OpCode.JmpEnd [] [] =
      IterOut.again
        ⟨⟨((List.replicate ARRAY_SIZE 0).set 0 1).set 0 0, 0⟩,
          [OpCode.Increment, OpCode.JmpStart, OpCode.Decrement, OpCode.JmpEnd], [], 4⟩ [] [] := by
    have := exec_step_jmpEnd_pop
      ⟨⟨((List.replicate ARRAY_SIZE 0).set 0 1).set 0 0, 0⟩,
        [OpCode.Increment, OpCode.JmpStart, OpCode.Decrement, OpCode.JmpEnd], [2], 3⟩
      2 [] [] [] rfl rfl (by decide)
    exact this
  exact (run_loop_step 9 ⟨⟨List.replicate ARRAY_SIZE 0, 0⟩, [OpCode.Increment, OpCode.JmpStart, OpCode.Decrement, OpCode.JmpEnd], [], 0⟩ OpCode.Increment [] [] ⟨⟨(List.replicate ARRAY_SIZE 0).set 0 1, 0⟩, [OpCode.Increment, OpCode.JmpStart, OpCode.Decrement, OpCode.JmpEnd], [], 1⟩ [] [] rfl h0).trans
    ((run_loop_step 8 ⟨⟨(List.replicate ARRAY_SIZE 0).set 0 1, 0⟩, [OpCode.Increment, OpCode.JmpStart, OpCode.Decrement, OpCode.JmpEnd], [], 1⟩ OpCode.JmpStart [] [] ⟨⟨(List.replicate ARRAY_SIZE 0).set 0 1, 0⟩, [OpCode.Increment, OpCode.JmpStart, OpCode.Decrement, OpCode.JmpEnd], [2], 2⟩ [] [] rfl h1).trans
      ((run_loop_step 7 ⟨⟨(List.replicate ARRAY_SIZE 0).set 0 1, 0⟩, [OpCode.Increment, OpCode.JmpStart, OpCode.Decrement, OpCode.JmpEnd], [2], 2⟩ OpCode.Decrement [] [] ⟨⟨((List.replicate ARRAY_SIZE 0).set 0 1).set 0 0, 0⟩, [OpCode.Increment, OpCode.JmpStart, OpCode.Decrement, OpCode.JmpEnd], [2], 3⟩ [] [] rfl h2).trans
        ((run_loop_step 6 ⟨⟨((List.replicate ARRAY_SIZE 0).set 0 1).set 0 0, 0⟩, [OpCode.Increment, OpCode.JmpStart, OpCode.Decrement, OpCode.JmpEnd], [2], 3⟩ OpCode.JmpEnd [] [] ⟨⟨((List.replicate ARRAY_SIZE 0).set 0 1).set 0 0, 0⟩, [OpCode.Increment, OpCode.JmpStart, OpCode.Decrement, OpCode.JmpEnd], [], 4⟩ [] [] rfl h3).trans
          (run_loop_done_of_none 5 ⟨⟨((List.replicate ARRAY_SIZE 0).set 0 1).set 0 0, 0⟩, [OpCode.Increment, OpCode.JmpStart, OpCode.Decrement, OpCode.JmpEnd], [], 4⟩ [] [] rfl))))

theorem run_program_dot_lt_dot :
    execute_all 10 (Interpreter.new [OpCode.Output, OpCode.MoveBack, OpCode.Output]) [] [] =
      RunResult.fatal "Pointer access violation"
        ⟨⟨List.replicate ARRAY_SIZE 0, 0⟩,
          [OpCode.Output, OpCode.MoveBack, OpCode.Output], [], 1⟩
        [0] [] := by
  show run_loop 10
      ⟨⟨List.replicate ARRAY_SIZE 0, 0⟩,
        [OpCode.Output, OpCode.MoveBack, OpCode.Output], [], 0⟩ [] [] = _
  have h0 : exec_step
      ⟨⟨List.replicate ARRAY_SIZE 0, 0⟩,
        [OpCode.Output, OpCode.MoveBack, OpCode.Output], [], 0⟩
      OpCode.Output [] [] =
      IterOut.again
        ⟨⟨List.replicate ARRAY_SIZE 0, 0⟩,
          [OpCode.Output, OpCode.MoveBack, OpCode.Output], [], 1⟩ [0] [] := by
    have := exec_step_output
      ⟨⟨List.replicate ARRAY_SIZE 0, 0⟩,
        [OpCode.Output, OpCode.MoveBack, OpCode.Output], [], 0⟩
      0 [] [] rfl (by decide)
    exact this
  have h1 : exec_step
      ⟨⟨List.replicate ARRAY_SIZE 0, 0⟩,
        [OpCode.Output, OpCode.MoveBack, OpCode.Output], [], 1⟩
      OpCode.MoveBack [0] [] =
      IterOut.stopped "Pointer access violation"
        ⟨⟨List.replicate ARRAY_SIZE 0, 0⟩,
          [OpCode.Output, OpCode.MoveBack, OpCode.Output], [], 1⟩ [0] [] :=
    exec_step_moveBack_zero _ [0] [] rfl
  exact (run_loop_step 9 ⟨⟨List.replicate ARRAY_SIZE 0, 0⟩, [OpCode.Output, OpCode.MoveBack, OpCode.Output], [], 0⟩ OpCode.Output [] [] ⟨⟨List.replicate ARRAY_SIZE 0, 0⟩, [OpCode.Output, OpCode.MoveBack, OpCode.Output], [], 1⟩ [0] [] rfl h0).trans
    (run_loop_fatal_step 8 ⟨⟨List.replicate ARRAY_SIZE 0, 0⟩, [OpCode.Output, OpCode.MoveBack, OpCode.Output], [], 1⟩ OpCode.MoveBack [0] [] "Pointer access violation" ⟨⟨List.replicate ARRAY_SIZE 0, 0⟩, [OpCode.Output, OpCode.MoveBack, OpCode.Output], [], 1⟩ [0] [] rfl h1)

theorem run_program_lt :
    execute_all 2 (Interpreter.new [OpCode.MoveBack]) [] [] =
      RunResult.fatal "Pointer access violation"
        ⟨⟨List.replicate ARRAY_SIZE 0, 0⟩, [OpCode.MoveBack], [], 0⟩ [] [] := by
  show run_loop 2
      ⟨⟨List.replicate ARRAY_SIZE 0, 0⟩, [OpCode.MoveBack], [], 0⟩ [] [] = _
  exact run_loop_fatal_step 1 ⟨⟨List.replicate ARRAY_SIZE 0, 0⟩, [OpCode.MoveBack], [], 0⟩
    OpCode.MoveBack [] [] "Pointer access violation"
    ⟨⟨List.replicate ARRAY_SIZE 0, 0⟩, [OpCode.MoveBack], [], 0⟩ [] [] rfl
    (exec_step_moveBack_zero ⟨⟨List.replicate ARRAY_SIZE 0, 0⟩, [OpCode.MoveBack], [], 0⟩ [] [] rfl)

/-! ### Helper facts used by the claim theorems -/

theorem goodRel_of_forall_lt (opn : Nat) (bs : List Nat)
    (h : ∀ j, j < bs.length → bs.get? j = some 93 →
      bcloses (bs.take j) < bopens (bs.take j) + opn) :
    GoodRel opn bs := by
  intro j hj
  by_cases hlt : j < bs.length
  · exact h j hlt hj
  · rw [List.get?_len_le (by omega)] at hj
    exact Option.noConfusion hj

theorem set_value_some (st : BfArray) (v : Nat) (st2 : BfArray)
    (h : st.set_value v = some st2) :
    st2 = { st with raw := st.raw.set st.pointer v } ∧
    st.pointer < st.raw.length := by
  unfold BfArray.set_value at h
  split at h
  · exact ⟨(Option.some.inj h).symm, by assumption⟩
  · exact Option.noConfusion h

/-! ### The claims -/

/-- C1, counterexample: the claim says a `MoveForward` at the last valid
cell (`cursor = capacity - 1`) halts the run with a fatal condition and
that the cursor always stays below the capacity.  On the code, the run of
65535 `MoveForward` instructions from a fresh tape terminates NORMALLY
(no fatal condition) with the cursor equal to `ARRAY_SIZE` = 65535, i.e.
equal to the capacity, outside the claimed range. -/
theorem C1_counterexample :
    execute_all 65536 (Interpreter.new (List.replicate 65535 OpCode.MoveForward)) [] [] =
      RunResult.done
        ⟨⟨List.replicate ARRAY_SIZE 0, 65535⟩,
          List.replicate 65535 OpCode.MoveForward, [], 65535⟩ [] [] ∧
    ARRAY_SIZE = 65535 ∧ ¬ 65535 < ARRAY_SIZE := by
  refine ⟨?_, rfl, by decide⟩
  show run_loop 65536
      ⟨⟨List.replicate ARRAY_SIZE 0, 0⟩, List.replicate 65535 OpCode.MoveForward, [], 0⟩ [] [] = _
  exact run_replicate_mf 65535 (List.replicate ARRAY_SIZE 0) 65535 0 [] [] (by omega) (by decide)

/-- C1, amended: the cursor is a natural number, so it can never go below
zero; executing `MoveBack` at cursor 0 produces the fatal
"Pointer access violation" condition without moving the cursor, and a run
consisting of `MoveBack` on a fresh tape halts fatally.  The upper bound
`cursor < capacity` is NOT enforced by the moves: `MoveForward` succeeds
at every cursor below `USIZE_MAX` (in particular at `capacity - 1`),
moving the cursor up by one. -/
theorem C1_amended_cursor_bounds (st : BfArray) :
    (st.pointer = 0 →
      st.move_pointer ModifyDirection.down =
        (Action.exit "Pointer access violation", st)) ∧
    (st.pointer < USIZE_MAX →
      st.move_pointer ModifyDirection.up =
        (Action.none, { st with pointer := st.pointer + 1 })) ∧
    execute_all 2 (Interpreter.new [OpCode.MoveBack]) [] [] =
      RunResult.fatal "Pointer access violation"
        ⟨⟨List.replicate ARRAY_SIZE 0, 0⟩, [OpCode.MoveBack], [], 0⟩ [] [] := by
  refine ⟨?_, ?_, run_program_lt⟩
  · intro h0
    simp [BfArray.move_pointer, h0, checked_sub_of_zero]
  · intro hlt
    simp [BfArray.move_pointer, checked_add_of_lt st.pointer hlt]

/-- C1, witness for the amended claim at cursor 0 and at
cursor = capacity - 1 = 65534. -/
theorem C1_witness :
    BfArray.move_pointer ⟨[0], 0⟩ ModifyDirection.down =
      (Action.exit "Pointer access violation", ⟨[0], 0⟩) ∧
    BfArray.move_pointer ⟨[0], 65534⟩ ModifyDirection.up =
      (Action.none, ⟨[0], 65535⟩) :=
  ⟨(C1_amended_cursor_bounds ⟨[0], 0⟩).1 rfl,
   (C1_amended_cursor_bounds ⟨[0], 65534⟩).2.1 (by decide)⟩

/-- C2, counterexample: the fresh tape does not have 65536 cells — the
source sets `ARRAY_SIZE = u16::max_value() as usize`, which is 65535. -/
theorem C2_counterexample : BfArray.new.raw.length ≠ 65536 := by
  show (List.replicate ARRAY_SIZE 0).length ≠ 65536
  rw [List.length_replicate]
  decide

/-- C2, amended: a freshly constructed tape has exactly `ARRAY_SIZE` =
65535 cells, every cell initialized to zero, and its cursor initialized
to zero. -/
theorem C2_amended_tape_init :
    BfArray.new.raw.length = ARRAY_SIZE ∧ ARRAY_SIZE = 65535 ∧
    (∀ i, i < ARRAY_SIZE → BfArray.new.raw.get? i = some 0) ∧
    BfArray.new.pointer = 0 := by
  refine ⟨List.length_replicate .., rfl, ?_, rfl⟩
  intro i hi
  show (List.replicate ARRAY_SIZE 0).get? i = some 0
  rw [List.get?_eq_getElem?, List.getElem?_replicate, if_pos hi]

/-- C2, witness for the amended claim at cells 0 and 65534. -/
theorem C2_witness :
    BfArray.new.raw.get? 0 = some 0 ∧ BfArray.new.raw.get? 65534 = some 0 :=
  ⟨C2_amended_tape_init.2.2.1 0 (by decide),
   C2_amended_tape_init.2.2.1 65534 (by decide)⟩

/-- C3: executing a `JmpStart` at a nonzero cell pushes
`instruction pointer + 1` onto the jump stack and advances the pointer by
one; a `JmpEnd` at a nonzero cell sets the instruction pointer to the top
of the jump stack without popping; a `JmpEnd` at a zero cell pops the
stack and advances the pointer by one. -/
theorem C3_loop_stack_semantics (st : Interpreter) (w s : List Nat) :
    (∀ v, st.inner.value = some (v + 1) → st.pointer < USIZE_MAX →
      exec_step st OpCode.JmpStart w s =
        IterOut.again
          { st with jump_stack := (st.pointer + 1) :: st.jump_stack,
                    pointer := st.pointer + 1 } w s) ∧
    (∀ v t rest, st.inner.value = some (v + 1) → st.jump_stack = t :: rest →
      exec_step st OpCode.JmpEnd w s =
        IterOut.again { st with pointer := t } w s) ∧
    (∀ x rest, st.inner.value = some 0 → st.jump_stack = x :: rest →
      st.pointer < USIZE_MAX →
      exec_step st OpCode.JmpEnd w s =
        IterOut.again
          { st with jump_stack := rest, pointer := st.pointer + 1 } w s) :=
  ⟨fun v hv hp => exec_step_jmpStart_push st v w s hv hp,
   fun v t rest hv hjs => exec_step_jmpEnd_back st v t rest w s hv hjs,
   fun x rest hv hjs hp => exec_step_jmpEnd_pop st x rest w s hv hjs hp⟩

/-- C3, witness on one-instruction states with a one-cell tape. -/
theorem C3_witness :
    exec_step ⟨⟨[1], 0⟩, [OpCode.JmpStart], [], 0⟩ OpCode.JmpStart [] [] =
      IterOut.again ⟨⟨[1], 0⟩, [OpCode.JmpStart], [1], 1⟩ [] [] ∧
    exec_step ⟨⟨[1], 0⟩, [OpCode.JmpEnd], [7], 0⟩ OpCode.JmpEnd [] [] =
      IterOut.again ⟨⟨[1], 0⟩, [OpCode.JmpEnd], [7], 7⟩ [] [] ∧
    exec_step ⟨⟨[0], 0⟩, [OpCode.JmpEnd], [7], 0⟩ OpCode.JmpEnd [] [] =
      IterOut.again ⟨⟨[0], 0⟩, [OpCode.JmpEnd], [], 1⟩ [] [] :=
  ⟨(C3_loop_stack_semantics ⟨⟨[1], 0⟩, [OpCode.JmpStart], [], 0⟩ [] []).1
      0 rfl (by decide),
   (C3_loop_stack_semantics ⟨⟨[1], 0⟩, [OpCode.JmpEnd], [7], 0⟩ [] []).2.1
      0 7 [] rfl rfl,
   (C3_loop_stack_semantics ⟨⟨[0], 0⟩, [OpCode.JmpEnd], [7], 0⟩ [] []).2.2
      7 [] rfl rfl (by decide)⟩

/-- C4: for a successfully parsed program, a `JmpStart` whose cell is zero
makes the forward scan find a matching `JmpEnd` strictly inside the
program (it never reads past the end), and the iteration continues at one
past that `JmpEnd` with the jump stack unchanged. -/
theorem C4_forward_jump_scan (bs : List Nat) (ops : List OpCode)
    (st : Interpreter) (w s : List Nat)
    (hparse : parse bs = Except.ok ops)
    (hlen : ops.length ≤ USIZE_MAX)
    (hops : st.ops = ops)
    (hop : ops.get? st.pointer = some OpCode.JmpStart)
    (hv : st.inner.value = some 0) :
    ∃ m, jmp_forward_go ops st.pointer 0 = some m ∧
      st.pointer < m ∧ m < ops.length ∧ ops.get? m = some OpCode.JmpEnd ∧
      exec_step st OpCode.JmpStart w s =
        IterOut.again { st with pointer := m + 1 } w s := by
  have hbal := parse_balanced bs ops hparse
  obtain ⟨hlt, -⟩ := List.get?_eq_some.mp hop
  have htk : ops.take (st.pointer + 1) = ops.take st.pointer ++ [OpCode.JmpStart] := by
    rw [List.take_succ]
    rw [show ops[st.pointer]? = some OpCode.JmpStart from by
      rw [← List.get?_eq_getElem?]; exact hop]
    rfl
  have hsplit := congrArg opens (List.take_append_drop (st.pointer + 1) ops)
  have hsplit2 := congrArg closes (List.take_append_drop (st.pointer + 1) ops)
  rw [opens_append] at hsplit
  rw [closes_append] at hsplit2
  have hpre := hbal.1 st.pointer
  have htkc := congrArg closes htk
  have htko := congrArg opens htk
  rw [closes_append] at htkc
  rw [opens_append] at htko
  simp at htkc htko
  have hsur : opens (ops.drop (st.pointer + 1)) + 0 <
      closes (ops.drop (st.pointer + 1)) := by
    have h2 := hbal.2
    omega
  have hsome := jmp_forward_go_total ops.length ops st.pointer 0 (by omega) hlen hsur
  obtain ⟨m, hgo⟩ := Option.isSome_iff_exists.mp hsome
  obtain ⟨h1, h2, h3, -, -⟩ :=
    jmp_forward_go_spec ops.length ops st.pointer 0 m (by omega) hgo
  refine ⟨m, hgo, h1, h2, h3, ?_⟩
  exact exec_step_jmpStart_skip st m w s hv (by rw [hops]; exact hgo) (by omega)

/-- C4, witness on the parsed program `[]` with a zero cell. -/
theorem C4_witness :
    ∃ m, jmp_forward_go [OpCode.JmpStart, OpCode.JmpEnd] 0 0 = some m ∧
      0 < m ∧ m < 2 ∧
      [OpCode.JmpStart, OpCode.JmpEnd].get? m = some OpCode.JmpEnd ∧
      exec_step (Interpreter.new [OpCode.JmpStart, OpCode.JmpEnd])
          OpCode.JmpStart [] [] =
        IterOut.again
          { Interpreter.new [OpCode.JmpStart, OpCode.JmpEnd] with pointer := m + 1 }
          [] [] :=
  C4_forward_jump_scan [91, 93] [OpCode.JmpStart, OpCode.JmpEnd]
    (Interpreter.new [OpCode.JmpStart, OpCode.JmpEnd]) [] []
    rfl (by decide) rfl rfl rfl

/-- C5: the jump stack is empty when a run starts and empty again whenever
a run of a successfully parsed program terminates normally; in particular
the program `+[-]` halts normally with cell 0 back at 0 and the jump
stack empty. -/
theorem C5_jump_stack_empty (bs : List Nat) (ops : List OpCode) (fuel : Nat)
    (w s : List Nat) (st' : Interpreter) (w' s' : List Nat)
    (hparse : parse bs = Except.ok ops) :
    (Interpreter.new ops).jump_stack = [] ∧
    (execute_all fuel (Interpreter.new ops) w s = RunResult.done st' w' s' →
      st'.jump_stack = []) ∧
    (parse [43, 91, 45, 93] =
        Except.ok [OpCode.Increment, OpCode.JmpStart, OpCode.Decrement, OpCode.JmpEnd] ∧
      execute_all 10 (Interpreter.new
          [OpCode.Increment, OpCode.JmpStart, OpCode.Decrement, OpCode.JmpEnd]) [] [] =
        RunResult.done
          ⟨⟨((List.replicate ARRAY_SIZE 0).set 0 1).set 0 0, 0⟩,
            [OpCode.Increment, OpCode.JmpStart, OpCode.Decrement, OpCode.JmpEnd], [], 4⟩
          [] [] ∧
      (((List.replicate ARRAY_SIZE 0).set 0 1).set 0 0).get? 0 = some 0) := by
  refine ⟨rfl, ?_, rfl, run_program_plus_loop_minus, rfl⟩
  intro h
  exact execute_all_done_stack_empty fuel ops w s st' w' s'
    (parse_balanced bs ops hparse) h

/-- C5, witness: the `+[-]` program, with the final state of its run. -/
theorem C5_witness :
    (Interpreter.new
      [OpCode.Increment, OpCode.JmpStart, OpCode.Decrement, OpCode.JmpEnd]).jump_stack = [] ∧
    (⟨⟨((List.replicate ARRAY_SIZE 0).set 0 1).set 0 0, 0⟩,
      [OpCode.Increment, OpCode.JmpStart, OpCode.Decrement, OpCode.JmpEnd], [], 4⟩ :
        Interpreter).jump_stack = [] :=
  ⟨(C5_jump_stack_empty [43, 91, 45, 93]
      [OpCode.Increment, OpCode.JmpStart, OpCode.Decrement, OpCode.JmpEnd]
      10 [] []
      ⟨⟨((List.replicate ARRAY_SIZE 0).set 0 1).set 0 0, 0⟩,
        [OpCode.Increment, OpCode.JmpStart, OpCode.Decrement, OpCode.JmpEnd], [], 4⟩
      [] [] rfl).1,
   (C5_jump_stack_empty [43, 91, 45, 93]
      [OpCode.Increment, OpCode.JmpStart, OpCode.Decrement, OpCode.JmpEnd]
      10 [] []
      ⟨⟨((List.replicate ARRAY_SIZE 0).set 0 1).set 0 0, 0⟩,
        [OpCode.Increment, OpCode.JmpStart, OpCode.Decrement, OpCode.JmpEnd], [], 4⟩
      [] [] rfl).2.1 run_program_plus_loop_minus⟩

/-- C6: parsing fails with the unmatched-close error exactly when some `]`
is reached with the open counter at zero, fails with the unmatched-open
error when the whole stream is consumed with a nonzero counter, succeeds
otherwise, and an error excludes a program; `]` alone and `[` alone fail
accordingly. -/
theorem C6_parse_error_classification (bs : List Nat) :
    (¬ GoodRel 0 bs → parse bs = Except.error "Unmatched ']'") ∧
    (GoodRel 0 bs → bopens bs ≠ bcloses bs →
      parse bs = Except.error "Unmatched '['") ∧
    (GoodRel 0 bs → bopens bs = bcloses bs → ∃ ops, parse bs = Except.ok ops) ∧
    (∀ e ops, parse bs = Except.error e → parse bs ≠ Except.ok ops) ∧
    parse [93] = Except.error "Unmatched ']'" ∧
    parse [91] = Except.error "Unmatched '['" := by
  refine ⟨?_, ?_, ?_, ?_, rfl, rfl⟩
  · intro hbad
    exact parse_go_close_error bs 0 [] hbad
  · intro hg hne
    exact (parse_go_classify bs 0 [] hg).2 (by omega)
  · intro hg he
    exact (parse_go_classify bs 0 [] hg).1 (by omega)
  · intro e ops he hok
    rw [he] at hok
    exact Except.noConfusion hok

/-- C6, witness on `][`, `[[]` and `[]`. -/
theorem C6_witness :
    parse [93, 91] = Except.error "Unmatched ']'" ∧
    parse [91, 91, 93] = Except.error "Unmatched '['" ∧
    ∃ ops, parse [91, 93] = Except.ok ops :=
  ⟨(C6_parse_error_classification [93, 91]).1
      (fun hg => by have := hg 0 rfl; simp at this),
   (C6_parse_error_classification [91, 91, 93]).2.1
      (goodRel_of_forall_lt 0 _ (by decide)) (by decide),
   (C6_parse_error_classification [91, 93]).2.2.1
      (goodRel_of_forall_lt 0 _ (by decide)) (by decide)⟩

/-- C7: running `.<.` on a fresh tape writes one byte, then `MoveBack` at
cursor 0 halts the run with the "Pointer access violation" fatal
condition; the byte already written is kept, and the trailing `Output` is
never executed (the output stays `[0]`). -/
theorem C7_fatal_stops_run :
    parse [46, 60, 46] =
      Except.ok [OpCode.Output, OpCode.MoveBack, OpCode.Output] ∧
    execute_all 10
        (Interpreter.new [OpCode.Output, OpCode.MoveBack, OpCode.Output]) [] [] =
      RunResult.fatal "Pointer access violation"
        ⟨⟨List.replicate ARRAY_SIZE 0, 0⟩,
          [OpCode.Output, OpCode.MoveBack, OpCode.Output], [], 1⟩
        [0] [] :=
  ⟨rfl, run_program_dot_lt_dot⟩

/-- C8: with the cursor on a valid cell, `Input` on an exhausted source
stores 0 in the current cell, `Input` with a byte available consumes
exactly that byte and stores it, and the result action is never a fault. -/
theorem C8_input_semantics (st : BfArray) (hlt : st.pointer < st.raw.length) :
    st.input [] = some (Action.none, { st with raw := st.raw.set st.pointer 0 }, []) ∧
    (∀ b rest, st.input (b :: rest) =
      some (Action.none, { st with raw := st.raw.set st.pointer (b % 256) }, rest)) ∧
    (∀ stdin a st2 s2, st.input stdin = some (a, st2, s2) → a = Action.none) := by
  refine ⟨?_, ?_, ?_⟩
  · simp [BfArray.input, BfArray.set_value, hlt]
  · intro b rest
    simp [BfArray.input, BfArray.set_value, hlt]
  · intro stdin a st2 s2 h
    cases stdin with
    | nil =>
      simp [BfArray.input, BfArray.set_value, hlt] at h
      exact h.1.symm
    | cons b rest =>
      simp [BfArray.input, BfArray.set_value, hlt] at h
      exact h.1.symm

/-- C8, witness on a one-cell tape. -/
theorem C8_witness :
    BfArray.input ⟨[5], 0⟩ [] = some (Action.none, ⟨[0], 0⟩, []) ∧
    BfArray.input ⟨[5], 0⟩ [65, 66] = some (Action.none, ⟨[65], 0⟩, [66]) :=
  ⟨(C8_input_semantics ⟨[5], 0⟩ (by decide)).1,
   (C8_input_semantics ⟨[5], 0⟩ (by decide)).2.1 65 [66]⟩

/-- C9: non-command bytes are transparent to the parser, and a
bracket-free stream always parses into a program without jump
instructions. -/
theorem C9_comment_bytes (bs : List Nat) :
    parse bs = parse (bs.filter is_command) ∧
    ((∀ b ∈ bs, b ≠ 91 ∧ b ≠ 93) →
      ∃ ops, parse bs = Except.ok ops ∧
        ∀ op ∈ ops, op ≠ OpCode.JmpStart ∧ op ≠ OpCode.JmpEnd) := by
  constructor
  · exact parse_go_filter bs [] 0
  · intro h
    obtain ⟨tl, hok, hnj⟩ := parse_go_no_brackets bs [] h
    refine ⟨tl, ?_, hnj⟩
    simpa using hok

/-- C9, witness on `+a.` (with `a` = 97 a comment byte). -/
theorem C9_witness :
    parse [43, 97, 46] = parse ([43, 97, 46].filter is_command) ∧
    ∃ ops, parse [43, 97, 46] = Except.ok ops ∧
      ∀ op ∈ ops, op ≠ OpCode.JmpStart ∧ op ≠ OpCode.JmpEnd :=
  ⟨(C9_comment_bytes [43, 97, 46]).1,
   (C9_comment_bytes [43, 97, 46]).2 (by decide)⟩

/-- C10: `Increment`, `Decrement`, `Output` and `Input` never move the
tape cursor and never change a cell other than the current one (`Output`
changes nothing at all), and `MoveForward` / `MoveBack` never change any
cell. -/
theorem C10_frame_effects (st : BfArray) (w s : List Nat) :
    (∀ op, (op = OpCode.Increment ∨ op = OpCode.Decrement ∨
        op = OpCode.Output ∨ op = OpCode.Input) →
      ∀ a inner' w2 s2, st.perform_operation op w s = some (a, inner', w2, s2) →
        inner'.pointer = st.pointer ∧
        ∀ i, i ≠ st.pointer → inner'.raw.get? i = st.raw.get? i) ∧
    (∀ a inner' w2 s2,
      st.perform_operation OpCode.Output w s = some (a, inner', w2, s2) →
      inner' = st) ∧
    (∀ d, ((st.move_pointer d).2).raw = st.raw) := by
  have hset : ∀ v i, i ≠ st.pointer →
      (st.raw.set st.pointer v).get? i = st.raw.get? i := by
    intro v i hi
    rw [List.get?_eq_getElem?, List.get?_eq_getElem?]
    exact List.getElem?_set_ne (Ne.symm hi)
  refine ⟨?_, ?_, ?_⟩
  · intro op hop a inner' w2 s2 h
    rcases hop with rfl | rfl | rfl | rfl
    · simp only [BfArray.perform_operation, BfArray.modify_value] at h
      cases hv : st.value <;> rw [hv] at h
      · simp at h
      · simp at h
        obtain ⟨st3, hsv, -, hst3, -, -⟩ := h
        obtain ⟨hdef, -⟩ := set_value_some st _ st3 hsv
        subst hst3
        subst hdef
        exact ⟨rfl, fun i hi => hset _ i hi⟩
    · simp only [BfArray.perform_operation, BfArray.modify_value] at h
      cases hv : st.value <;> rw [hv] at h
      · simp at h
      · simp at h
        obtain ⟨st3, hsv, -, hst3, -, -⟩ := h
        obtain ⟨hdef, -⟩ := set_value_some st _ st3 hsv
        subst hst3
        subst hdef
        exact ⟨rfl, fun i hi => hset _ i hi⟩
    · simp only [BfArray.perform_operation, BfArray.output] at h
      simp at h
      obtain ⟨v, hv, -, hst, -, -⟩ := h
      subst hst
      exact ⟨rfl, fun i _ => rfl⟩
    · cases s with
      | nil =>
        simp only [BfArray.perform_operation, BfArray.input] at h
        simp at h
        obtain ⟨st3, hsv, -, hst3, -, -⟩ := h
        obtain ⟨hdef, -⟩ := set_value_some st _ st3 hsv
        subst hst3
        subst hdef
        exact ⟨rfl, fun i hi => hset _ i hi⟩
      | cons b rest =>
        simp only [BfArray.perform_operation, BfArray.input] at h
        simp at h
        obtain ⟨st3, hsv, -, hst3, -, -⟩ := h
        obtain ⟨hdef, -⟩ := set_value_some st _ st3 hsv
        subst hst3
        subst hdef
        exact ⟨rfl, fun i hi => hset _ i hi⟩
  · intro a inner' w2 s2 h
    simp only [BfArray.perform_operation, BfArray.output] at h
    simp at h
    obtain ⟨v, hv, -, hst, -, -⟩ := h
    exact hst.symm
  · intro d
    cases d with
    | up => cases hc : checked_add st.pointer <;> simp [BfArray.move_pointer, hc]
    | down => cases hc : checked_sub st.pointer <;> simp [BfArray.move_pointer, hc]

/-- C10, witness on a two-cell tape. -/
theorem C10_witness :
    (⟨[6, 7], 0⟩ : BfArray).pointer = (⟨[5, 7], 0⟩ : BfArray).pointer ∧
    ∀ i, i ≠ (⟨[5, 7], 0⟩ : BfArray).pointer →
      (⟨[6, 7], 0⟩ : BfArray).raw.get? i = (⟨[5, 7], 0⟩ : BfArray).raw.get? i :=
  (C10_frame_effects ⟨[5, 7], 0⟩ [] []).1 OpCode.Increment (Or.inl rfl)
    Action.none ⟨[6, 7], 0⟩ [] [] rfl

end Bf
